import Mathlib

/-!
# Verification of the wasm instrumentation engine (`instrumentation.rs`)

This file gives a shallow embedding of the instrumentation passes of
`src/wasm_tools/src/instrumentation.rs` and proves the specification claims
about them.  Definitions are translated from the Rust source; definitions
whose doc comment says "Spec model" transcribe the wording of the
specification and are compared against the source-level definitions in the
theorems.
-/

namespace Wasm

/-- Feature flag, from `ic_config::flag_status::FlagStatus`. -/
inductive FlagStatus where
  | Enabled
  | Disabled
deriving DecidableEq, Repr

/-- Wasm value types (`wasmparser::ValType`), restricted to the numeric types
the instrumentation uses. -/
inductive ValType where
  | i32
  | i64
  | f32
  | f64
deriving DecidableEq, Repr

/-- Block types for structured instructions (`wasmparser::BlockType`).  The
instrumentation only ever constructs `BlockType::Empty`; other block types are
collapsed into `other`. -/
inductive BlockType where
  | empty
  | other (n : Nat)
deriving DecidableEq, Repr

/-- Memory argument of load/store instructions (`wasmparser::MemArg`).
`offset` is the `u64` static offset, `memory` the memory index. -/
structure MemArg where
  align : Nat
  maxAlign : Nat
  offset : Nat
  memory : Nat
deriving DecidableEq, Repr

/-- The subset of `wasmparser::Operator` handled specially by the
instrumentation, plus a catch-all `nop`/`otherOp` for every remaining
instruction (the Rust code treats all of those uniformly through `_`
match arms).  Integer immediates are carried as `Int` (for signed `iNN`
constants) or `Nat` (for indices). -/
inductive Operator where
  | call (function_index : Nat)
  | returnCall (function_index : Nat)
  | refFunc (function_index : Nat)
  | block (blockty : BlockType)
  | loop (blockty : BlockType)
  | if_ (blockty : BlockType)
  | else_
  | end_
  | br (relative_depth : Nat)
  | brIf (relative_depth : Nat)
  | brTable (targets : List Nat)
  | memoryFill (mem : Nat)
  | memoryCopy (dst_mem : Nat) (src_mem : Nat)
  | memoryInit (data_index : Nat) (mem : Nat)
  | tableCopy (dst_table : Nat) (src_table : Nat)
  | tableInit (elem_index : Nat) (table : Nat)
  | globalGet (global_index : Nat)
  | globalSet (global_index : Nat)
  | localGet (local_index : Nat)
  | localSet (local_index : Nat)
  | localTee (local_index : Nat)
  | i32Const (value : Int)
  | i64Const (value : Int)
  | i64Sub
  | i64LtS
  | i64ExtendI32U
  | i32Add
  | i32ShrU
  | i32Load8U (memarg : MemArg)
  | i32Store (memarg : MemArg)
  | i32Store8 (memarg : MemArg)
  | i32Store16 (memarg : MemArg)
  | i64Store (memarg : MemArg)
  | i64Store8 (memarg : MemArg)
  | i64Store16 (memarg : MemArg)
  | i64Store32 (memarg : MemArg)
  | f32Store (memarg : MemArg)
  | f64Store (memarg : MemArg)
  | memoryGrow (mem : Nat)
  | nop
  | otherOp (n : Nat)
deriving DecidableEq, Repr

/-- `instruction_to_cost`: cost of a single instruction.  Block-structuring
opcodes (`block`, `else`, `end`, `loop`) cost 0, every other instruction
costs 1 (translated from `instrumentation.rs` lines 161-173). -/
def instruction_to_cost (i : Operator) : Nat :=
  match i with
  | .block _ => 0
  | .else_ => 0
  | .end_ => 0
  | .loop _ => 0
  | _ => 1

/-- Context hint of a static cost injection point (`enum Scope`). -/
inductive Scope where
  | ReentrantBlockStart
  | NonReentrantBlockStart
  | BlockEnd
deriving DecidableEq, Repr

/-- How the cost at an injection point is determined
(`enum InjectionPointCostDetail`). -/
inductive InjectionPointCostDetail where
  | StaticCost (scope : Scope) (cost : Nat)
  | DynamicCost
deriving DecidableEq, Repr

/-- `InjectionPointCostDetail::increment_cost`: increase a statically known
cost, do nothing for a dynamic cost. -/
def InjectionPointCostDetail.increment_cost :
    InjectionPointCostDetail → Nat → InjectionPointCostDetail
  | .StaticCost scope cost, additional_cost => .StaticCost scope (cost + additional_cost)
  | .DynamicCost, _ => .DynamicCost

/-- An instructions-metering injection point (`struct InjectionPoint`). -/
structure InjectionPoint where
  cost_detail : InjectionPointCostDetail
  position : Nat
deriving DecidableEq, Repr

/-- `InjectionPoint::new_static_cost`. -/
def InjectionPoint.new_static_cost (position : Nat) (scope : Scope) : InjectionPoint :=
  { cost_detail := .StaticCost scope 0, position }

/-- `InjectionPoint::new_dynamic_cost`. -/
def InjectionPoint.new_dynamic_cost (position : Nat) : InjectionPoint :=
  { cost_detail := .DynamicCost, position }

/-- `InjectionPoint.increment_cost` lifted to the whole point, mirroring
`curr.cost_detail.increment_cost(...)` in the Rust loop. -/
def InjectionPoint.incrementCost (p : InjectionPoint) (c : Nat) : InjectionPoint :=
  { p with cost_detail := p.cost_detail.increment_cost c }

/-- Comparison by position used by `res.sort_by_key(|k| k.position)`. -/
def posLe (a b : InjectionPoint) : Prop := a.position ≤ b.position

instance : DecidableRel posLe := fun a b => Nat.decLe a.position b.position

instance : IsTotal InjectionPoint posLe := ⟨fun a b => Nat.le_total a.position b.position⟩

instance : IsTrans InjectionPoint posLe := ⟨fun _ _ _ h h' => Nat.le_trans h h'⟩

/-- The main loop of `injections` (lines 1066-1115): walks the code with the
current pending injection point `curr`, a stack of suspended points (one per
open nested block) and the accumulated result `res`.  `pos` is the position
of the next instruction.  On `End` with an empty stack the loop `break`s,
returning `res` with the final point appended. -/
def injectionsAux (pos : Nat) (curr : InjectionPoint) (stack : List InjectionPoint)
    (res : List InjectionPoint) : List Operator → List InjectionPoint
  | [] => res
  | i :: rest =>
    match i with
    -- Start of a re-entrant code block.
    | .loop _ =>
      injectionsAux (pos + 1) (InjectionPoint.new_static_cost (pos + 1) .ReentrantBlockStart)
        (curr.incrementCost (instruction_to_cost i) :: stack) res rest
    -- Start of a non re-entrant code block.
    | .if_ _ =>
      injectionsAux (pos + 1) (InjectionPoint.new_static_cost (pos + 1) .NonReentrantBlockStart)
        (curr.incrementCost (instruction_to_cost i) :: stack) res rest
    | .block _ =>
      injectionsAux (pos + 1) (InjectionPoint.new_static_cost (pos + 1) .NonReentrantBlockStart)
        (curr.incrementCost (instruction_to_cost i) :: stack) res rest
    -- End of a code block but still more code left.
    | .else_ =>
      injectionsAux (pos + 1) (InjectionPoint.new_static_cost (pos + 1) .BlockEnd)
        stack (res ++ [curr.incrementCost (instruction_to_cost i)]) rest
    | .br _ =>
      injectionsAux (pos + 1) (InjectionPoint.new_static_cost (pos + 1) .BlockEnd)
        stack (res ++ [curr.incrementCost (instruction_to_cost i)]) rest
    | .brIf _ =>
      injectionsAux (pos + 1) (InjectionPoint.new_static_cost (pos + 1) .BlockEnd)
        stack (res ++ [curr.incrementCost (instruction_to_cost i)]) rest
    | .brTable _ =>
      injectionsAux (pos + 1) (InjectionPoint.new_static_cost (pos + 1) .BlockEnd)
        stack (res ++ [curr.incrementCost (instruction_to_cost i)]) rest
    -- `End` closes a code block; with an empty stack the walk stops.
    | .end_ =>
      match stack with
      | s :: stack' =>
        injectionsAux (pos + 1) s stack'
          (res ++ [curr.incrementCost (instruction_to_cost i)]) rest
      | [] => res ++ [curr.incrementCost (instruction_to_cost i)]
    -- Bulk memory instructions get a dynamic-cost point before the
    -- instruction itself.
    | .memoryFill _ =>
      injectionsAux (pos + 1) (curr.incrementCost (instruction_to_cost i)) stack
        (res ++ [InjectionPoint.new_dynamic_cost pos]) rest
    | .memoryCopy _ _ =>
      injectionsAux (pos + 1) (curr.incrementCost (instruction_to_cost i)) stack
        (res ++ [InjectionPoint.new_dynamic_cost pos]) rest
    | .memoryInit _ _ =>
      injectionsAux (pos + 1) (curr.incrementCost (instruction_to_cost i)) stack
        (res ++ [InjectionPoint.new_dynamic_cost pos]) rest
    | .tableCopy _ _ =>
      injectionsAux (pos + 1) (curr.incrementCost (instruction_to_cost i)) stack
        (res ++ [InjectionPoint.new_dynamic_cost pos]) rest
    | .tableInit _ _ =>
      injectionsAux (pos + 1) (curr.incrementCost (instruction_to_cost i)) stack
        (res ++ [InjectionPoint.new_dynamic_cost pos]) rest
    -- Nothing special to be done for other instructions.
    | _ =>
      injectionsAux (pos + 1) (curr.incrementCost (instruction_to_cost i)) stack res rest

/-- `injections` (lines 1066-1115): compute all metering injection points of
a function body.  The function itself is a re-entrant code block; the result
is sorted (stably) by position, mirroring `res.sort_by_key(|k| k.position)`. -/
def injections (code : List Operator) : List InjectionPoint :=
  List.insertionSort posLe
    (injectionsAux 0 (InjectionPoint.new_static_cost 0 .ReentrantBlockStart) [] [] code)

example : injections [Operator.i32Const 5] = [] := by rfl

example :
    injections [Operator.nop, Operator.end_] =
      [⟨.StaticCost .ReentrantBlockStart 1, 0⟩] := by rfl

/-! ## Metering code generator (`inject_metering`) -/

/-- Indices of the injected function imports (`enum InjectedImports`). -/
def InjectedImports.OutOfInstructions : Nat := 0

/-- Index of the injected `update_available_memory` import. -/
def InjectedImports.UpdateAvailableMemory : Nat := 1

/-- `InjectedImports::count`: 5 helper imports with wasm-native stable
memory, 2 without. -/
def InjectedImports.count (wasm_native_stable_memory : FlagStatus) : Nat :=
  if wasm_native_stable_memory = .Enabled then 5 else 2

/-- `struct ExportModuleData`: the per-module record of where the counter
global, helper functions and original start function live. -/
structure ExportModuleData where
  instructions_counter_ix : Nat
  dirty_pages_counter_ix : Option Nat
  decr_instruction_counter_fn : Nat
  count_clean_pages_fn : Option Nat
  start_fn_ix : Option Nat
deriving DecidableEq, Repr

/-- The Rust expression `cost as i64` for a `u64` cost: wrap into the
signed 64-bit range. -/
def i64_of_u64 (n : Nat) : Int :=
  let v : Nat := n % 2 ^ 64
  if v < 2 ^ 63 then (v : Int) else (v : Int) - 2 ^ 64

/-- The filter at the head of `inject_metering` (lines 788-796): keep
dynamic-cost points, all reentrant-block-start points, and other static
points only when their cost is positive. -/
def surviving_points (points : List InjectionPoint) : List InjectionPoint :=
  points.filter fun point =>
    match point.cost_detail with
    | .StaticCost .ReentrantBlockStart _ => true
    | .StaticCost _ cost => decide (cost > 0)
    | .DynamicCost => true

/-- The splicing loop of `inject_metering` (lines 797-843): for each
injection point copy `orig_elems[last_injection_position..point.position]`,
emit the metering code for the point, and continue with
`last_injection_position = point.position`; at the end copy the remaining
instructions. -/
def injectMeteringGo (emd : ExportModuleData) (orig : List Operator) :
    List InjectionPoint → Nat → List Operator
  | [], last => orig.drop last
  | point :: ps, last =>
    (orig.drop last).take (point.position - last) ++
    (match point.cost_detail with
     | .StaticCost scope cost =>
       [.globalGet emd.instructions_counter_ix,
        .i64Const (i64_of_u64 cost),
        .i64Sub,
        .globalSet emd.instructions_counter_ix] ++
       (if scope = .ReentrantBlockStart then
         [.globalGet emd.instructions_counter_ix,
          .i64Const 0,
          .i64LtS,
          .if_ .empty,
          .call InjectedImports.OutOfInstructions,
          .end_]
        else [])
     | .DynamicCost => [.call emd.decr_instruction_counter_fn]) ++
    injectMeteringGo emd orig ps point.position

/-- `inject_metering` (lines 787-844): filter the injection points of the
code and splice the counter-decrement / overflow-check / dynamic-cost-call
sequences in front of the surviving points. -/
def inject_metering (code : List Operator) (export_data_module : ExportModuleData) :
    List Operator :=
  injectMeteringGo export_data_module code (surviving_points (injections code)) 0

/-- Spec model: the code emitted at one surviving injection point, following
the spec's description.  Static-cost points get `global.get counter` /
`i64.const cost` / `i64.sub` / `global.set counter`; reentrant-scope points
additionally get `global.get counter` / `i64.const 0` / `i64.lt_s` / `if` /
`call out_of_instructions` (function index 0) / `end`; dynamic-cost points
get a single call to the decrement-helper function index. -/
def meteringInstructions (emd : ExportModuleData) :
    InjectionPointCostDetail → List Operator
  | .StaticCost .ReentrantBlockStart cost =>
    [.globalGet emd.instructions_counter_ix,
     .i64Const (i64_of_u64 cost),
     .i64Sub,
     .globalSet emd.instructions_counter_ix,
     .globalGet emd.instructions_counter_ix,
     .i64Const 0,
     .i64LtS,
     .if_ .empty,
     .call 0,
     .end_]
  | .StaticCost _ cost =>
    [.globalGet emd.instructions_counter_ix,
     .i64Const (i64_of_u64 cost),
     .i64Sub,
     .globalSet emd.instructions_counter_ix]
  | .DynamicCost => [.call emd.decr_instruction_counter_fn]

/-- Spec model: splice `meteringInstructions` immediately before each listed
point's position, keeping the instructions between consecutive points (and
after the last one) untouched. -/
def spliceMeteringGo (emd : ExportModuleData) (orig : List Operator) :
    List InjectionPoint → Nat → List Operator
  | [], last => orig.drop last
  | point :: ps, last =>
    (orig.drop last).take (point.position - last) ++
    meteringInstructions emd point.cost_detail ++
    spliceMeteringGo emd orig ps point.position

/-! ## Growth guard (`inject_update_available_memory`) and write barrier
(`inject_mem_barrier`) -/

/-- A function signature (`wasmparser::FuncType`). -/
structure FuncType where
  params : List ValType
  results : List ValType
deriving DecidableEq, Repr

/-- A code-section entry (`wasm_transform::Body`): locals are stored as
`(count, type)` runs. -/
structure Body where
  locals : List (Nat × ValType)
  instructions : List Operator
deriving DecidableEq, Repr

/-- Whether an instruction is `memory.grow` (the pattern
`MemoryGrow { .. }`). -/
def isMemoryGrow : Operator → Bool
  | .memoryGrow _ => true
  | _ => false

/-- The position-collection loop of `inject_update_available_memory`
(lines 1013-1022): record the index of every `memory.grow`. -/
def memoryGrowPositions : List Operator → Nat → List Nat
  | [], _ => []
  | i :: rest, idx =>
    (if isMemoryGrow i then [idx] else []) ++ memoryGrowPositions rest (idx + 1)

/-- The splicing loop of `inject_update_available_memory` (lines 1033-1057):
at each recorded position emit `local.tee scratch` / the original
`memory.grow` / `local.get scratch` / `call update_available_memory`, then
continue after the original instruction. -/
def spliceGrowPoints (memory_local_ix : Nat) (orig : List Operator) :
    List Nat → Nat → List Operator
  | [], last => orig.drop last
  | point :: ps, last =>
    (orig.drop last).take (point - last) ++
    [.localTee memory_local_ix,
     orig.getD point .nop,
     .localGet memory_local_ix,
     .call InjectedImports.UpdateAvailableMemory] ++
    spliceGrowPoints memory_local_ix orig ps (point + 1)

/-- `inject_update_available_memory` (lines 1011-1059): guard every
`memory.grow` with a call to the `update_available_memory` host import; a
body with no `memory.grow` is left unchanged.  The scratch local index is
the parameter count plus the total count of existing locals. -/
def inject_update_available_memory (func_body : Body) (func_type : FuncType) : Body :=
  let injection_points := memoryGrowPositions func_body.instructions 0
  if injection_points.isEmpty then func_body
  else
    let n_locals := (func_body.locals.map Prod.fst).sum
    let memory_local_ix := func_type.params.length + n_locals
    { locals := func_body.locals ++ [(1, ValType.i32)],
      instructions :=
        spliceGrowPoints memory_local_ix func_body.instructions injection_points 0 }

/-- Spec model: the growth-guard rewrite described by the spec, as a direct
per-instruction expansion — each `memory.grow` becomes
`local.tee scratch` / `memory.grow` / `local.get scratch` /
`call update_available_memory`, every other instruction is kept as is. -/
def growGuardModel (memory_local_ix : Nat) (instrs : List Operator) : List Operator :=
  instrs.flatMap fun i =>
    match i with
    | .memoryGrow m =>
      [.localTee memory_local_ix, .memoryGrow m, .localGet memory_local_ix,
       .call InjectedImports.UpdateAvailableMemory]
    | _ => [i]

/-- The Rust expression `offset as i32` for a `u64` offset: wrap into the
signed 32-bit range. -/
def i32_of_u64 (n : Nat) : Int :=
  let v : Nat := n % 2 ^ 32
  if v < 2 ^ 31 then (v : Int) else (v : Int) - 2 ^ 32

/-- `PAGE_SIZE` (from `ic_sys`): the OS page size in bytes. -/
def PAGE_SIZE : Nat := 4096

/-- `PAGE_SIZE.trailing_zeros()`: the shift turning a byte address into an
OS-page index. -/
def page_size_shift : Nat := 12

/-- `write_barrier_instructions` (lines 848-919): assuming the value and
address operands of a store are on the stack, stash them into the scratch
locals, mark the touched OS page in the bytemap memory (index 1) with the
constant 1, and restore the operands.  Page-aligned static offsets use the
shifted offset as the bytemap store's static offset; other offsets are added
to the address before shifting. -/
def write_barrier_instructions (offset : Nat) (val_arg_idx addr_arg_idx : Nat) :
    List Operator :=
  let tracking_mem_idx := 1
  if offset % PAGE_SIZE = 0 then
    [.localSet val_arg_idx, -- value
     .localTee addr_arg_idx, -- address
     .i32Const (Int.ofNat page_size_shift),
     .i32ShrU,
     .i32Const 1,
     .i32Store8 ⟨0, 0, offset >>> page_size_shift, tracking_mem_idx⟩,
     -- Put original params on the stack
     .localGet addr_arg_idx,
     .localGet val_arg_idx]
  else
    [.localSet val_arg_idx, -- value
     .localTee addr_arg_idx, -- address
     .i32Const (i32_of_u64 offset),
     .i32Add,
     .i32Const (Int.ofNat page_size_shift),
     .i32ShrU,
     .i32Const 1,
     .i32Store8 ⟨0, 0, 0, tracking_mem_idx⟩,
     -- Put original params on the stack
     .localGet addr_arg_idx,
     .localGet val_arg_idx]

/-- Whether an instruction is one of the store instructions rewritten by the
write barrier (the match arms of lines 927-934). -/
def isStoreInstr : Operator → Bool
  | .i32Store _ | .i32Store8 _ | .i32Store16 _ => true
  | .i64Store _ | .i64Store8 _ | .i64Store16 _ | .i64Store32 _ => true
  | .f32Store _ => true
  | .f64Store _ => true
  | _ => false

/-- The position-collection loop of `inject_mem_barrier` (lines 923-938):
record the index of every store instruction. -/
def storePositions : List Operator → Nat → List Nat
  | [], _ => []
  | i :: rest, idx =>
    (if isStoreInstr i then [idx] else []) ++ storePositions rest (idx + 1)

/-- The per-site emission of `inject_mem_barrier` (lines 963-996): pick the
scratch value local matching the stored value's type and emit the barrier in
front of the original store. -/
def memBarrierFor (arg_i32_addr_idx arg_i32_val_idx arg_i64_val_idx
    arg_f32_val_idx arg_f64_val_idx : Nat) : Operator → List Operator
  | .i32Store memarg | .i32Store8 memarg | .i32Store16 memarg =>
    write_barrier_instructions memarg.offset arg_i32_val_idx arg_i32_addr_idx
  | .i64Store memarg | .i64Store8 memarg | .i64Store16 memarg | .i64Store32 memarg =>
    write_barrier_instructions memarg.offset arg_i64_val_idx arg_i32_addr_idx
  | .f32Store memarg =>
    write_barrier_instructions memarg.offset arg_f32_val_idx arg_i32_addr_idx
  | .f64Store memarg =>
    write_barrier_instructions memarg.offset arg_f64_val_idx arg_i32_addr_idx
  | _ => []

/-- The splicing loop of `inject_mem_barrier` (lines 956-1003): at each
recorded position emit the write barrier followed by the original store
instruction, then continue after it. -/
def spliceStorePoints (arg_i32_addr_idx arg_i32_val_idx arg_i64_val_idx
    arg_f32_val_idx arg_f64_val_idx : Nat) (orig : List Operator) :
    List Nat → Nat → List Operator
  | [], last => orig.drop last
  | point :: ps, last =>
    (orig.drop last).take (point - last) ++
    memBarrierFor arg_i32_addr_idx arg_i32_val_idx arg_i64_val_idx
      arg_f32_val_idx arg_f64_val_idx (orig.getD point .nop) ++
    [orig.getD point .nop] ++
    spliceStorePoints arg_i32_addr_idx arg_i32_val_idx arg_i64_val_idx
      arg_f32_val_idx arg_f64_val_idx orig ps (point + 1)

/-- `inject_mem_barrier` (lines 921-1005): rewrite every store instruction to
first mark the touched page in the bytemap; a body with no stores is left
unchanged.  Scratch locals `(2, i32)` (address and i32 value), `(1, i64)`,
`(1, f32)`, `(1, f64)` are appended after the existing locals. -/
def inject_mem_barrier (func_body : Body) (func_type : FuncType) : Body :=
  let injection_points := storePositions func_body.instructions 0
  if injection_points.isEmpty then func_body
  else
    let n_locals := (func_body.locals.map Prod.fst).sum
    let arg_i32_addr_idx := func_type.params.length + n_locals
    let arg_i32_val_idx := arg_i32_addr_idx + 1
    let arg_i64_val_idx := arg_i32_val_idx + 1
    let arg_f32_val_idx := arg_i64_val_idx + 1
    let arg_f64_val_idx := arg_f32_val_idx + 1
    { locals := func_body.locals ++
        [(2, ValType.i32), (1, ValType.i64), (1, ValType.f32), (1, ValType.f64)],
      instructions :=
        spliceStorePoints arg_i32_addr_idx arg_i32_val_idx arg_i64_val_idx
          arg_f32_val_idx arg_f64_val_idx func_body.instructions injection_points 0 }

/-- Spec model: the write-barrier rewrite of one store site, following the
spec's words — stash value and address, store the constant 1 into the
bytemap memory (memory index 1) at the page index covering
`address + static-offset` (using an address-only shift with a static bytemap
offset of `offset / PAGE_SIZE` when the offset is an exact multiple of the
page size, and adding the offset to the address before shifting otherwise),
then reload address and value. -/
def barrierModel (offset : Nat) (val_idx addr_idx : Nat) : List Operator :=
  if offset % PAGE_SIZE = 0 then
    [.localSet val_idx, .localTee addr_idx,
     .i32Const (Int.ofNat page_size_shift), .i32ShrU,
     .i32Const 1, .i32Store8 ⟨0, 0, offset / PAGE_SIZE, 1⟩,
     .localGet addr_idx, .localGet val_idx]
  else
    [.localSet val_idx, .localTee addr_idx,
     .i32Const (i32_of_u64 offset), .i32Add,
     .i32Const (Int.ofNat page_size_shift), .i32ShrU,
     .i32Const 1, .i32Store8 ⟨0, 0, 0, 1⟩,
     .localGet addr_idx, .localGet val_idx]

/-- Spec model: the write-barrier pass as a direct per-instruction expansion
— each store becomes its barrier (with the scratch local matching its value
class) followed by the store itself, re-executed unchanged; every other
instruction is kept as is. -/
def memBarrierModel (addr_idx i32_idx i64_idx f32_idx f64_idx : Nat)
    (instrs : List Operator) : List Operator :=
  instrs.flatMap fun i =>
    match i with
    | .i32Store memarg => barrierModel memarg.offset i32_idx addr_idx ++ [i]
    | .i32Store8 memarg => barrierModel memarg.offset i32_idx addr_idx ++ [i]
    | .i32Store16 memarg => barrierModel memarg.offset i32_idx addr_idx ++ [i]
    | .i64Store memarg => barrierModel memarg.offset i64_idx addr_idx ++ [i]
    | .i64Store8 memarg => barrierModel memarg.offset i64_idx addr_idx ++ [i]
    | .i64Store16 memarg => barrierModel memarg.offset i64_idx addr_idx ++ [i]
    | .i64Store32 memarg => barrierModel memarg.offset i64_idx addr_idx ++ [i]
    | .f32Store memarg => barrierModel memarg.offset f32_idx addr_idx ++ [i]
    | .f64Store memarg => barrierModel memarg.offset f64_idx addr_idx ++ [i]
    | _ => [i]

/-! ## The module data model (`wasm_transform::Module` and friends) -/

/-- Export kinds (`wasmparser::ExternalKind`). -/
inductive ExternalKind where
  | Func
  | Table
  | Memory
  | Global
  | Tag
deriving DecidableEq, Repr

/-- An export entry (`wasmparser::Export`). -/
structure Export where
  name : String
  kind : ExternalKind
  index : Nat
deriving DecidableEq, Repr

/-- A memory type (`wasmparser::MemoryType`), sizes in wasm pages. -/
structure MemoryType where
  memory64 : Bool
  shared : Bool
  initial : Nat
  maximum : Option Nat
deriving DecidableEq, Repr

/-- A table type (`wasmparser::TableType`), with limits only. -/
structure TableType where
  initial : Nat
  maximum : Option Nat
deriving DecidableEq, Repr

/-- A global's type (`wasmparser::GlobalType`). -/
structure GlobalType where
  content_type : ValType
  mutable : Bool
deriving DecidableEq, Repr

/-- A global definition (`wasmparser::Global`); the constant initializer
expression is kept as an instruction list. -/
structure Global where
  ty : GlobalType
  init_expr : List Operator
deriving DecidableEq, Repr

/-- Import descriptors (`wasmparser::TypeRef`). -/
inductive TypeRef where
  | Func (type_index : Nat)
  | Table (t : TableType)
  | Memory (m : MemoryType)
  | Global (g : GlobalType)
  | Tag (t : Nat)
deriving DecidableEq, Repr

/-- An import entry (`wasmparser::Import`). -/
structure Import where
  module : String
  name : String
  ty : TypeRef
deriving DecidableEq, Repr

/-- Element segment kind (`wasm_transform::ElementKind`). -/
inductive ElementKind where
  | Passive
  | Declared
  | Active (table_index : Nat) (offset_expr : List Operator)
deriving DecidableEq, Repr

/-- Element segment payload (`wasm_transform::ElementItems`): either a list
of function indices or constant expressions. -/
inductive ElementItems where
  | Functions (indices : List Nat)
  | ConstExprs (exprs : List (List Operator))
deriving DecidableEq, Repr

/-- Data segment kind (`wasm_transform::DataSegmentKind`): active segments
carry a memory index and a single-operator offset expression. -/
inductive DataSegmentKind where
  | Passive
  | Active (memory_index : Nat) (offset_expr : Operator)
deriving DecidableEq, Repr

/-- A data segment (`wasm_transform::DataSegment`); the payload bytes are
modelled as a list of byte values. -/
structure DataSegment where
  kind : DataSegmentKind
  data : List Nat
deriving DecidableEq, Repr

/-- The in-memory module (`wasm_transform::Module`): typed sections of a
parsed wasm binary.  `functions` maps each locally defined function to its
type index; `code_sections` is parallel to it. -/
structure Module where
  types : List FuncType
  imports : List Import
  functions : List Nat
  tables : List TableType
  memories : List MemoryType
  globals : List Global
  exports : List Export
  elements : List (ElementKind × ElementItems)
  code_sections : List Body
  data : List DataSegment
  start : Option Nat
deriving DecidableEq, Repr

/-- The instrumentation error type (`WasmInstrumentationError`), restricted
to the variants `get_data` produces. -/
inductive WasmInstrumentationError where
  | WasmDeserializeError (msg : String)
deriving DecidableEq, Repr

/-! ## Reserved names and size constants -/

/-- `INSTRUMENTED_FUN_MODULE`. -/
def INSTRUMENTED_FUN_MODULE : String := "__"

/-- `OUT_OF_INSTRUCTIONS_FUN_NAME`. -/
def OUT_OF_INSTRUCTIONS_FUN_NAME : String := "out_of_instructions"

/-- `UPDATE_MEMORY_FUN_NAME`. -/
def UPDATE_MEMORY_FUN_NAME : String := "update_available_memory"

/-- `TRY_GROW_STABLE_MEMORY_FUN_NAME`. -/
def TRY_GROW_STABLE_MEMORY_FUN_NAME : String := "try_grow_stable_memory"

/-- `DEALLOCATE_PAGES_NAME`. -/
def DEALLOCATE_PAGES_NAME : String := "deallocate_pages"

/-- `INTERNAL_TRAP_FUN_NAME`. -/
def INTERNAL_TRAP_FUN_NAME : String := "internal_trap"

/-- `TABLE_STR`: the reserved canonical table export name. -/
def TABLE_STR : String := "table"

/-- Modelled from the spec: `WASM_HEAP_MEMORY_NAME`, the canonical primary
memory export name (defined in the `wasmtime_embedder` module, outside this
repository). -/
def WASM_HEAP_MEMORY_NAME : String := "memory"

/-- Modelled from the spec: `WASM_HEAP_BYTEMAP_MEMORY_NAME`, the canonical
heap-bytemap export name (defined outside this repository). -/
def WASM_HEAP_BYTEMAP_MEMORY_NAME : String := "bytemap_memory"

/-- `STABLE_MEMORY_NAME`, from the module doc comment
(`(memory (export "stable_memory") i64 ...)`). -/
def STABLE_MEMORY_NAME : String := "stable_memory"

/-- `STABLE_BYTEMAP_MEMORY_NAME`, from the module doc comment. -/
def STABLE_BYTEMAP_MEMORY_NAME : String := "stable_memory_bytemap"

/-- `WASM_PAGE_SIZE` (from `wasmtime_environ`): 64 KiB. -/
def WASM_PAGE_SIZE : Nat := 65536

/-- Modelled from the spec: `MAX_WASM_MEMORY_IN_BYTES` (4 GiB, from
`ic_types`, outside this repository). -/
def MAX_WASM_MEMORY_IN_BYTES : Nat := 4 * 1024 * 1024 * 1024

/-- Modelled from the spec: `MAX_STABLE_MEMORY_IN_BYTES` (from `ic_types`,
outside this repository; the exact figure does not matter for the claims). -/
def MAX_STABLE_MEMORY_IN_BYTES : Nat := 64 * 1024 * 1024 * 1024

/-- `BYTEMAP_SIZE_IN_WASM_PAGES`: one byte per OS page of the wasm heap. -/
def BYTEMAP_SIZE_IN_WASM_PAGES : Nat :=
  MAX_WASM_MEMORY_IN_BYTES / PAGE_SIZE / WASM_PAGE_SIZE

/-- `MAX_STABLE_MEMORY_IN_WASM_PAGES`. -/
def MAX_STABLE_MEMORY_IN_WASM_PAGES : Nat := MAX_STABLE_MEMORY_IN_BYTES / WASM_PAGE_SIZE

/-- `STABLE_BYTEMAP_SIZE_IN_WASM_PAGES`: one byte per OS page of the stable
memory. -/
def STABLE_BYTEMAP_SIZE_IN_WASM_PAGES : Nat := MAX_STABLE_MEMORY_IN_WASM_PAGES / PAGE_SIZE

/-! ## Data segment extractor (`get_data`) -/

/-- The Rust expression `*value as usize` for an `i32` value: sign-extend
into the 64-bit unsigned range. -/
def usize_of_i32 (v : Int) : Nat := (v % 2 ^ 64).toNat

/-- The per-segment extraction of `get_data` (lines 1124-1142): an active
segment whose offset expression is a single `i32.const` yields
`(value as usize, bytes)`; an active segment with any other offset
expression is a deserialization error; a segment with no offset (a passive
segment) is a deserialization error. -/
def extractSegment (segment : DataSegment) :
    Except WasmInstrumentationError (Nat × List Nat) :=
  match segment.kind with
  | .Active _ offset_expr =>
    match offset_expr with
    | .i32Const value => .ok ((usize_of_i32 value, segment.data))
    | _ => .error (.WasmDeserializeError
        "complex initialization expressions for data segments are not supported!")
  | _ => .error (.WasmDeserializeError "no offset found for the data segment")

/-- The `collect::<Result<_, _>>()` of `get_data`: extract every segment in
order, stopping at the first error. -/
def collectSegments :
    List DataSegment → Except WasmInstrumentationError (List (Nat × List Nat))
  | [] => .ok []
  | s :: rest =>
    match extractSegment s with
    | .error e => .error e
    | .ok pair =>
      match collectSegments rest with
      | .error e => .error e
      | .ok pairs => .ok (pair :: pairs)

/-- `get_data` (lines 1119-1147): convert the data section to a list of
`(heap offset, bytes)` pairs and clear the section.  The Rust function takes
the section by mutable reference and returns a `Result`; here it returns the
result together with the final state of the section — the `?` on the
`collect` returns before `data_section.clear()` runs, so on error the
section is unchanged. -/
def get_data (data_section : List DataSegment) :
    Except WasmInstrumentationError (List (Nat × List Nat)) × List DataSegment :=
  match collectSegments data_section with
  | .error e => (.error e, data_section)
  | .ok res => (.ok res, [])

/-- Spec model: a data segment is well-formed when it is active with a
single `i32.const` offset expression. -/
def segmentGood (segment : DataSegment) : Bool :=
  match segment.kind with
  | .Active _ (.i32Const _) => true
  | _ => false

/-- Spec model: the `(offset, bytes)` pair of a well-formed segment. -/
def segmentPair (segment : DataSegment) : Option (Nat × List Nat) :=
  match segment.kind with
  | .Active _ (.i32Const value) => some (usize_of_i32 value, segment.data)
  | _ => none

/-! ## Export normalizers and memory scheme -/

/-- The body of the rename loop of `export_table` (lines 1151-1156). -/
def renameTableExport (export_ : Export) : Export :=
  if export_.kind = .Table then { export_ with name := TABLE_STR } else export_

/-- `export_table` (lines 1149-1168, the only uncommented function of the
source file): rename every table export to the canonical name, and if no
table export exists but a table does, export table 0 under the canonical
name. -/
def export_table (module : Module) : Module :=
  let table_already_exported := module.exports.any fun export_ => export_.kind = .Table
  let module := { module with exports := module.exports.map renameTableExport }
  if !table_already_exported && !module.tables.isEmpty then
    { module with exports := module.exports ++ [⟨TABLE_STR, .Table, 0⟩] }
  else module

/-- The body of the rename loop of `update_memories` (lines 1181-1186). -/
def renameMemoryExport (export_ : Export) : Export :=
  if export_.kind = .Memory then { export_ with name := WASM_HEAP_MEMORY_NAME } else export_

/-- `update_memories` (lines 1173-1243): normalize the primary-memory
export, optionally append the heap bytemap (write barrier) and the stable
memory plus its bytemap (wasm-native stable memory), exporting each; returns
the module and the index assigned to the stable memory (0 when the feature
is disabled). -/
def update_memories (module : Module) (write_barrier : FlagStatus)
    (wasm_native_stable_memory : FlagStatus) : Module × Nat :=
  let memory_already_exported := module.exports.any fun export_ => export_.kind = .Memory
  let module := { module with exports := module.exports.map renameMemoryExport }
  let module :=
    if !memory_already_exported && !module.memories.isEmpty then
      { module with exports := module.exports ++ [⟨WASM_HEAP_MEMORY_NAME, .Memory, 0⟩] }
    else module
  let module :=
    if write_barrier = .Enabled && !module.memories.isEmpty then
      { module with
        memories := module.memories ++
          [⟨false, false, BYTEMAP_SIZE_IN_WASM_PAGES, some BYTEMAP_SIZE_IN_WASM_PAGES⟩],
        exports := module.exports ++ [⟨WASM_HEAP_BYTEMAP_MEMORY_NAME, .Memory, 1⟩] }
    else module
  if wasm_native_stable_memory = .Enabled then
    let stable_index := module.memories.length
    ({ module with
       memories := module.memories ++
         [⟨true, false, 0, some MAX_STABLE_MEMORY_IN_WASM_PAGES⟩,
          ⟨false, false, STABLE_BYTEMAP_SIZE_IN_WASM_PAGES,
           some STABLE_BYTEMAP_SIZE_IN_WASM_PAGES⟩],
       exports := module.exports ++
         [⟨STABLE_MEMORY_NAME, .Memory, stable_index⟩,
          -- Bytemap for a memory needs to be placed at the next index after
          -- the memory
          ⟨STABLE_BYTEMAP_MEMORY_NAME, .Memory, stable_index + 1⟩] },
     stable_index)
  else (module, 0)

/-! ## Index renumbering (`mutate_function_indices`, `inject_helper_functions`) -/

/-- `mutate_function_indices` (lines 218-246): apply `f` to every function
index in the module — the `Call`/`ReturnCall`/`RefFunc` operands of every
code body, the indices of function exports, the function entries of element
segments, and the start index. -/
def mutate_function_indices (module : Module) (f : Nat → Nat) : Module :=
  { module with
    code_sections := module.code_sections.map fun func_body =>
      { func_body with
        instructions := func_body.instructions.map fun instr =>
          match instr with
          | .call function_index => .call (f function_index)
          | .returnCall function_index => .returnCall (f function_index)
          | .refFunc function_index => .refFunc (f function_index)
          | _ => instr },
    exports := module.exports.map fun exp =>
      if exp.kind = .Func then { exp with index := f exp.index } else exp,
    elements := module.elements.map fun elem =>
      (elem.1,
       match elem.2 with
       | .Functions fun_items => .Functions (fun_items.map f)
       | items => items),
    start := module.start.map f }

/-- `add_type` (lines 207-216): return the index of an existing equal
function type, or append the type and return its new index. -/
def add_type (module : Module) (ty : FuncType) : Module × Nat :=
  match module.types.findIdx? (fun msig => msig = ty) with
  | some idx => (module, idx)
  | none => ({ module with types := module.types ++ [ty] }, module.types.length)

/-- `inject_helper_functions` (lines 248-333): prepend the
`out_of_instructions` and `update_available_memory` imports (plus
`try_grow_stable_memory`, `deallocate_pages` and `internal_trap` when
wasm-native stable memory is enabled) ahead of the existing imports, adding
their function types, then increment every function index by the number of
injected imports. -/
def inject_helper_functions (module : Module) (wasm_native_stable_memory : FlagStatus) :
    Module :=
  let p1 := add_type module ⟨[], []⟩
  let p2 := add_type p1.1 ⟨[.i32, .i32], [.i32]⟩
  let ooi_imp : Import := ⟨INSTRUMENTED_FUN_MODULE, OUT_OF_INSTRUCTIONS_FUN_NAME, .Func p1.2⟩
  let uam_imp : Import := ⟨INSTRUMENTED_FUN_MODULE, UPDATE_MEMORY_FUN_NAME, .Func p2.2⟩
  let step :=
    if wasm_native_stable_memory = .Enabled then
      let q1 := add_type p2.1 ⟨[.i64, .i64, .i32], [.i64]⟩
      let q2 := add_type q1.1 ⟨[.i64], []⟩
      let q3 := add_type q2.1 ⟨[.i32], []⟩
      (q3.1,
       [ooi_imp, uam_imp,
        ⟨INSTRUMENTED_FUN_MODULE, TRY_GROW_STABLE_MEMORY_FUN_NAME, .Func q1.2⟩,
        ⟨INSTRUMENTED_FUN_MODULE, DEALLOCATE_PAGES_NAME, .Func q2.2⟩,
        ⟨INSTRUMENTED_FUN_MODULE, INTERNAL_TRAP_FUN_NAME, .Func q3.2⟩])
    else (p2.1, [ooi_imp, uam_imp])
  let module := { step.1 with imports := step.2 ++ step.1.imports }
  let cnt := InjectedImports.count wasm_native_stable_memory
  mutate_function_indices module (fun i => i + cnt)

/-! ## Spec models for the basic-block cost analyzer -/

/-- Whether an instruction is a `loop` header (spec: a new reentrant block
begins at a loop header). -/
def isLoopHeader : Operator → Bool
  | .loop _ => true
  | _ => false

/-- Whether an instruction is an `if` or `block` header (spec: a new
non-reentrant block begins at `if`/`block` headers). -/
def isNonReentrantHeader : Operator → Bool
  | .if_ _ => true
  | .block _ => true
  | _ => false

/-- Whether an instruction opens a nested block. -/
def isBlockHeader (i : Operator) : Bool := isLoopHeader i || isNonReentrantHeader i

/-- Whether an instruction closes the current block while more code of the
enclosing structure follows (`else`, `br`, `br_if`, `br_table`). -/
def isBlockCloser : Operator → Bool
  | .else_ => true
  | .br _ => true
  | .brIf _ => true
  | .brTable _ => true
  | _ => false

/-- Whether an instruction is `end`. -/
def isEndInstr : Operator → Bool
  | .end_ => true
  | _ => false

/-- Whether an instruction is one of the bulk memory/table instructions
recorded as dynamic-cost points (`memory.fill`, `memory.copy`,
`memory.init`, `table.copy`, `table.init`). -/
def isBulkMemoryInstr : Operator → Bool
  | .memoryFill _ => true
  | .memoryCopy _ _ => true
  | .memoryInit _ _ => true
  | .tableCopy _ _ => true
  | .tableInit _ _ => true
  | _ => false

/-- Spec model: the zero-cost block-structuring opcodes (`block`, `loop`,
`else`, `end`). -/
def isZeroCostStructural : Operator → Bool
  | .block _ => true
  | .loop _ => true
  | .else_ => true
  | .end_ => true
  | _ => false

/-- Spec model: the accumulated static cost of the basic block opening at
the head of the given code suffix.  `d` is the relative nesting depth: the
block's own instructions sit at depth 0, and the block ends at the first
depth-0 closing instruction (`else`/branch, whose own cost is counted, or
`end`); instructions inside nested blocks belong to those blocks' own
injection points and are not counted here. -/
def costFrom : List Operator → Nat → Nat
  | [], _ => 0
  | i :: rest, d =>
    if isBlockHeader i then
      (if d = 0 then instruction_to_cost i else 0) + costFrom rest (d + 1)
    else if isBlockCloser i then
      (if d = 0 then instruction_to_cost i else costFrom rest d)
    else if isEndInstr i then
      (match d with
       | 0 => 0
       | Nat.succ d' => costFrom rest d')
    else
      (if d = 0 then instruction_to_cost i else 0) + costFrom rest d

/-- Whether scanning the code at nesting depth `d` (0 = directly inside the
implicit function block) closes all open blocks exactly at the final
instruction: block structure is balanced and the implicit function block's
`end` is the last instruction. -/
def scanOk : List Operator → Nat → Bool
  | [], _ => false
  | i :: rest, d =>
    if isBlockHeader i then scanOk rest (d + 1)
    else if isEndInstr i then
      (match d with
       | 0 => rest.isEmpty
       | Nat.succ d' => scanOk rest d')
    else scanOk rest d

/-- A well-bracketed function body: the scan starting inside the implicit
function block terminates exactly at the last instruction. -/
def bodyOk (code : List Operator) : Bool := scanOk code 0

/-! ## Spec models for index renumbering -/

/-- Spec model: the function-index mutation `i ↦ i + k` applied to a single
instruction — `Call`, `ReturnCall` and `RefFunc` operands are incremented by
`k`, everything else is untouched. -/
def shiftOperator (k : Nat) : Operator → Operator
  | .call function_index => .call (function_index + k)
  | .returnCall function_index => .returnCall (function_index + k)
  | .refFunc function_index => .refFunc (function_index + k)
  | i => i

/-- Spec model: shift the index of a function export by `k`, leaving other
exports untouched. -/
def shiftExport (k : Nat) (e : Export) : Export :=
  if e.kind = .Func then { e with index := e.index + k } else e

/-- Spec model: shift every function entry of an element segment by `k`. -/
def shiftElement (k : Nat) (elem : ElementKind × ElementItems) :
    ElementKind × ElementItems :=
  (elem.1,
   match elem.2 with
   | .Functions indices => .Functions (indices.map (· + k))
   | items => items)

/-- Whether an import is a function import. -/
def isFuncImport (imp : Import) : Bool :=
  match imp.ty with
  | .Func _ => true
  | _ => false

/-- The function imports of a module, in function-index order. -/
def funcImports (module : Module) : List Import := module.imports.filter isFuncImport

/-- The identity of each entry of the function index space: imported
functions (identified by module and name) come first, then the locally
defined functions (identified by their rank among the local functions). -/
def funcIds (module : Module) : List ((String × String) ⊕ Nat) :=
  (funcImports module).map (fun imp => Sum.inl (imp.module, imp.name)) ++
    (List.range module.functions.length).map Sum.inr

/-! ## Spec model for the data segment extractor -/

/-- The deserialization error `get_data` produces for a given bad segment. -/
def segmentError (segment : DataSegment) : WasmInstrumentationError :=
  match segment.kind with
  | .Active _ _ => .WasmDeserializeError
      "complex initialization expressions for data segments are not supported!"
  | .Passive => .WasmDeserializeError "no offset found for the data segment"

/-- Spec model of `get_data`, following the spec's words: if some segment is
not active or has a non-`i32.const` offset expression, fail with the
deserialization error of the first such segment and leave the section
untouched; otherwise return every segment's `(offset, bytes)` pair in
segment order and clear the section. -/
def getDataModel (data_section : List DataSegment) :
    Except WasmInstrumentationError (List (Nat × List Nat)) × List DataSegment :=
  match data_section.find? (fun s => !segmentGood s) with
  | some s => (.error (segmentError s), data_section)
  | none => (.ok (data_section.filterMap segmentPair), [])

/-! ## Lemmas about `export_table` -/

theorem renameTableExport_idem (e : Export) :
    renameTableExport (renameTableExport e) = renameTableExport e := by
  unfold renameTableExport
  by_cases h : e.kind = .Table <;> simp [h]

theorem renameTableExport_kind (e : Export) :
    (renameTableExport e).kind = e.kind := by
  unfold renameTableExport
  by_cases h : e.kind = .Table <;> simp [h]

theorem map_renameTableExport_idem (l : List Export) :
    (l.map renameTableExport).map renameTableExport = l.map renameTableExport := by
  rw [List.map_map]
  apply List.map_congr_left
  intro a _
  exact renameTableExport_idem a

theorem any_table_map_rename (l : List Export) :
    ((l.map renameTableExport).any fun e => e.kind = .Table) =
      (l.any fun e => e.kind = .Table) := by
  induction l with
  | nil => rfl
  | cons e l ih => simp [List.any_cons, ih, renameTableExport_kind]

/-- `export_table` when a table export already exists: only the rename loop
fires. -/
theorem export_table_eq_pos (m : Module)
    (h1 : (m.exports.any fun e => e.kind = ExternalKind.Table) = true) :
    export_table m = { m with exports := m.exports.map renameTableExport } := by
  unfold export_table
  simp [h1]

/-- `export_table` when no table export and no table exists: only the
(vacuous) rename loop fires. -/
theorem export_table_eq_none (m : Module)
    (h1 : (m.exports.any fun e => e.kind = ExternalKind.Table) = false)
    (h2 : m.tables.isEmpty = true) :
    export_table m = { m with exports := m.exports.map renameTableExport } := by
  unfold export_table
  simp only [h1, Bool.not_false, Bool.true_and, h2, Bool.not_true]
  simp

/-- `export_table` when no table export exists but a table does: the
canonical export for table 0 is appended. -/
theorem export_table_eq_push (m : Module)
    (h1 : (m.exports.any fun e => e.kind = ExternalKind.Table) = false)
    (h2 : m.tables.isEmpty = false) :
    export_table m =
      { m with exports := m.exports.map renameTableExport ++
          [⟨TABLE_STR, .Table, 0⟩] } := by
  unfold export_table
  simp only [h1, Bool.not_false, Bool.true_and, h2]
  simp

theorem export_table_idem (m : Module) :
    export_table (export_table m) = export_table m := by
  by_cases h1 : (m.exports.any fun e => e.kind = ExternalKind.Table) = true
  · rw [export_table_eq_pos m h1,
      export_table_eq_pos { m with exports := m.exports.map renameTableExport }
        (by rw [any_table_map_rename]; exact h1),
      map_renameTableExport_idem]
  · rw [Bool.not_eq_true] at h1
    by_cases h2 : m.tables.isEmpty = true
    · rw [export_table_eq_none m h1 h2,
        export_table_eq_none { m with exports := m.exports.map renameTableExport }
          (by rw [any_table_map_rename]; exact h1) h2,
        map_renameTableExport_idem]
    · rw [Bool.not_eq_true] at h2
      rw [export_table_eq_push m h1 h2,
        export_table_eq_pos
          { m with exports := m.exports.map renameTableExport ++ [⟨TABLE_STR, .Table, 0⟩] }
          (by simp [List.any_append])]
      simp only [List.map_append, map_renameTableExport_idem]
      norm_num [renameTableExport]

/-- `export_table` on a module that already has a table export and whose
table exports all carry the canonical name is the identity. -/
theorem export_table_of_normalized (m : Module)
    (hex : ∃ e ∈ m.exports, e.kind = ExternalKind.Table)
    (hnm : ∀ e ∈ m.exports, e.kind = ExternalKind.Table → e.name = TABLE_STR) :
    export_table m = m := by
  have h1 : (m.exports.any fun e => e.kind = ExternalKind.Table) = true := by
    rw [List.any_eq_true]
    obtain ⟨e, he, hk⟩ := hex
    exact ⟨e, he, by simp [hk]⟩
  rw [export_table_eq_pos m h1]
  have hmap : m.exports.map renameTableExport = m.exports := by
    conv_rhs => rw [← List.map_id m.exports]
    apply List.map_congr_left
    intro a ha
    by_cases hk : a.kind = ExternalKind.Table
    · have hname := hnm a ha hk
      unfold renameTableExport
      rw [if_pos hk]
      cases a
      simp_all
    · simp [renameTableExport, hk]
  rw [hmap]

/-! ## Lemmas about `update_memories` -/

/-- With wasm-native stable memory enabled, `update_memories` takes whatever
module the heap-export and write-barrier steps produced and appends the
stable memory followed by its bytemap, exporting both; the returned index is
the memory count before the two appends. -/
theorem update_memories_enabled (m : Module) (wb : FlagStatus) :
    ∃ m3 : Module,
      update_memories m wb .Enabled =
        ({ m3 with
           memories := m3.memories ++
             [⟨true, false, 0, some MAX_STABLE_MEMORY_IN_WASM_PAGES⟩,
              ⟨false, false, STABLE_BYTEMAP_SIZE_IN_WASM_PAGES,
               some STABLE_BYTEMAP_SIZE_IN_WASM_PAGES⟩],
           exports := m3.exports ++
             [⟨STABLE_MEMORY_NAME, .Memory, m3.memories.length⟩,
              ⟨STABLE_BYTEMAP_MEMORY_NAME, .Memory, m3.memories.length + 1⟩] },
         m3.memories.length) := by
  unfold update_memories
  exact ⟨_, rfl⟩

/-! ## Lemmas about `inject_metering` -/

/-- The source splicing loop emits exactly the metering sequences the spec
describes. -/
theorem injectMeteringGo_eq_splice (emd : ExportModuleData) (orig : List Operator) :
    ∀ (ps : List InjectionPoint) (last : Nat),
      injectMeteringGo emd orig ps last = spliceMeteringGo emd orig ps last := by
  intro ps
  induction ps with
  | nil => intro last; rfl
  | cons p ps ih =>
    intro last
    cases hd : p.cost_detail with
    | DynamicCost =>
      simp [injectMeteringGo, spliceMeteringGo, meteringInstructions, hd, ih]
    | StaticCost scope cost =>
      cases scope <;>
        simp [injectMeteringGo, spliceMeteringGo, meteringInstructions, hd, ih,
          InjectedImports.OutOfInstructions]

theorem sublist_append_middle {α : Type} (pre mid : List α) {l r : List α}
    (h : l.Sublist r) : (pre ++ l).Sublist (pre ++ mid ++ r) := by
  rw [List.append_assoc]
  exact List.Sublist.append (List.Sublist.refl pre)
    (h.trans (List.sublist_append_right mid r))

theorem drop_sublist_injectMeteringGo (emd : ExportModuleData) (orig : List Operator) :
    ∀ (ps : List InjectionPoint) (last : Nat),
      List.Pairwise posLe ps → (∀ q ∈ ps, last ≤ q.position) →
      (orig.drop last).Sublist (injectMeteringGo emd orig ps last) := by
  intro ps
  induction ps with
  | nil =>
    intro last _ _
    simp [injectMeteringGo]
  | cons p ps ih =>
    intro last hpw hge
    have hle : last ≤ p.position := hge p (by simp)
    rw [List.pairwise_cons] at hpw
    have h1 : orig.drop p.position = (orig.drop last).drop (p.position - last) := by
      rw [List.drop_drop]
      congr 1
      omega
    have hsplit : (orig.drop last).take (p.position - last) ++ orig.drop p.position =
        orig.drop last := by
      rw [h1, List.take_append_drop]
    have htail : (orig.drop p.position).Sublist
        (injectMeteringGo emd orig ps p.position) :=
      ih p.position hpw.2 fun q hq => hpw.1 q hq
    rw [← hsplit]
    cases hd : p.cost_detail with
    | DynamicCost =>
      simp only [injectMeteringGo, hd]
      exact sublist_append_middle _ _ htail
    | StaticCost scope cost =>
      simp only [injectMeteringGo, hd]
      exact sublist_append_middle _ _ htail

/-- The injection points of a function are sorted by position. -/
theorem injections_pairwise (code : List Operator) :
    List.Pairwise posLe (injections code) :=
  List.sorted_insertionSort posLe _

/-- The surviving injection points remain sorted by position. -/
theorem surviving_pairwise (code : List Operator) :
    List.Pairwise posLe (surviving_points (injections code)) :=
  (injections_pairwise code).sublist (List.filter_sublist _)

/-! ## Lemmas about `injections` (the basic-block cost analyzer) -/

theorem drop_eq_cons_succ {α : Type} {orig : List α} {i : α} {rest : List α} {k : Nat}
    (h : orig.drop k = i :: rest) : orig.drop (k + 1) = rest := by
  rw [← List.tail_drop, h]
  rfl

theorem getD_of_drop_eq_cons {orig : List Operator} {i : Operator} {rest : List Operator}
    {k : Nat} (h : orig.drop k = i :: rest) : orig.getD k .nop = i := by
  have h0 : orig[k]? = some i := by
    have := List.getElem?_drop orig k 0
    rw [h] at this
    simpa using this.symm
  simp [List.getD, h0]

/-- One step of the `injections` walk, organized by instruction class. -/
theorem injectionsAux_cons (pos : Nat) (curr : InjectionPoint)
    (stack res : List InjectionPoint) (i : Operator) (rest : List Operator) :
    injectionsAux pos curr stack res (i :: rest) =
      if isLoopHeader i then
        injectionsAux (pos + 1) (InjectionPoint.new_static_cost (pos + 1) .ReentrantBlockStart)
          (curr.incrementCost (instruction_to_cost i) :: stack) res rest
      else if isNonReentrantHeader i then
        injectionsAux (pos + 1) (InjectionPoint.new_static_cost (pos + 1) .NonReentrantBlockStart)
          (curr.incrementCost (instruction_to_cost i) :: stack) res rest
      else if isBlockCloser i then
        injectionsAux (pos + 1) (InjectionPoint.new_static_cost (pos + 1) .BlockEnd)
          stack (res ++ [curr.incrementCost (instruction_to_cost i)]) rest
      else if isEndInstr i then
        (match stack with
         | s :: stack' =>
           injectionsAux (pos + 1) s stack'
             (res ++ [curr.incrementCost (instruction_to_cost i)]) rest
         | [] => res ++ [curr.incrementCost (instruction_to_cost i)])
      else if isBulkMemoryInstr i then
        injectionsAux (pos + 1) (curr.incrementCost (instruction_to_cost i)) stack
          (res ++ [InjectionPoint.new_dynamic_cost pos]) rest
      else
        injectionsAux (pos + 1) (curr.incrementCost (instruction_to_cost i)) stack res rest := by
  cases i <;> rfl

theorem not_header_of_closer {i : Operator} (h : isBlockCloser i = true) :
    isBlockHeader i = false := by
  cases i <;> simp_all [isBlockCloser, isBlockHeader, isLoopHeader, isNonReentrantHeader]

theorem not_header_of_end {i : Operator} (h : isEndInstr i = true) :
    isBlockHeader i = false := by
  cases i <;> simp_all [isEndInstr, isBlockHeader, isLoopHeader, isNonReentrantHeader]

theorem not_closer_of_end {i : Operator} (h : isEndInstr i = true) :
    isBlockCloser i = false := by
  cases i <;> simp_all [isEndInstr, isBlockCloser]

theorem not_end_of_closer {i : Operator} (h : isBlockCloser i = true) :
    isEndInstr i = false := by
  cases i <;> simp_all [isEndInstr, isBlockCloser]

/-- The accumulated result is only appended to: the run with accumulator
`res` is `res` followed by the run with an empty accumulator. -/
theorem injectionsAux_factor :
    ∀ (code : List Operator) (pos : Nat) (curr : InjectionPoint)
      (stack res : List InjectionPoint),
      injectionsAux pos curr stack res code =
        res ++ injectionsAux pos curr stack [] code := by
  intro code
  induction code with
  | nil => intro pos curr stack res; simp [injectionsAux]
  | cons i rest ih =>
    intro pos curr stack res
    rw [injectionsAux_cons, injectionsAux_cons]
    split_ifs with hL hN hC hE hB
    · exact ih _ _ _ _
    · exact ih _ _ _ _
    · rw [List.nil_append,
        ih (pos + 1) (InjectionPoint.new_static_cost (pos + 1) .BlockEnd) stack
          (res ++ [curr.incrementCost (instruction_to_cost i)]),
        ih (pos + 1) (InjectionPoint.new_static_cost (pos + 1) .BlockEnd) stack
          [curr.incrementCost (instruction_to_cost i)],
        List.append_assoc]
    · cases stack with
      | nil => simp
      | cons s stack' =>
        show injectionsAux (pos + 1) s stack'
            (res ++ [curr.incrementCost (instruction_to_cost i)]) rest =
          res ++ injectionsAux (pos + 1) s stack'
            [curr.incrementCost (instruction_to_cost i)] rest
        rw [ih (pos + 1) s stack' (res ++ [curr.incrementCost (instruction_to_cost i)]),
          ih (pos + 1) s stack' [curr.incrementCost (instruction_to_cost i)],
          List.append_assoc]
    · rw [List.nil_append,
        ih (pos + 1) (curr.incrementCost (instruction_to_cost i)) stack
          (res ++ [InjectionPoint.new_dynamic_cost pos]),
        ih (pos + 1) (curr.incrementCost (instruction_to_cost i)) stack
          [InjectionPoint.new_dynamic_cost pos],
        List.append_assoc]
    · exact ih _ _ _ _

theorem scanOk_cons (i : Operator) (rest : List Operator) (d : Nat) :
    scanOk (i :: rest) d =
      if isBlockHeader i then scanOk rest (d + 1)
      else if isEndInstr i then
        (match d with
         | 0 => rest.isEmpty
         | Nat.succ d' => scanOk rest d')
      else scanOk rest d := rfl

theorem costFrom_cons (i : Operator) (rest : List Operator) (d : Nat) :
    costFrom (i :: rest) d =
      if isBlockHeader i then
        (if d = 0 then instruction_to_cost i else 0) + costFrom rest (d + 1)
      else if isBlockCloser i then
        (if d = 0 then instruction_to_cost i else costFrom rest d)
      else if isEndInstr i then
        (match d with
         | 0 => 0
         | Nat.succ d' => costFrom rest d')
      else (if d = 0 then instruction_to_cost i else 0) + costFrom rest d := rfl

theorem increment_cost_detail (q : InjectionPoint) (sc : Scope) (c0 a : Nat)
    (h : q.cost_detail = .StaticCost sc c0) :
    (q.incrementCost a).cost_detail = .StaticCost sc (c0 + a) := by
  simp [InjectionPoint.incrementCost, InjectionPointCostDetail.increment_cost, h]

theorem increment_cost_position (q : InjectionPoint) (a : Nat) :
    (q.incrementCost a).position = q.position := rfl

/-- Everything already in `res` appears in the final output. -/
theorem mem_injectionsAux_of_mem_res {r : InjectionPoint}
    (code : List Operator) (pos : Nat) (curr : InjectionPoint)
    (stack res : List InjectionPoint) (hr : r ∈ res) :
    r ∈ injectionsAux pos curr stack res code := by
  rw [injectionsAux_factor]
  exact List.mem_append_left _ hr

/-- On a well-bracketed remainder, every pending injection point — the
current one and every suspended one on the stack — eventually reaches the
output, with its scope and position intact. -/
theorem open_points_survive :
    ∀ (code : List Operator) (pos : Nat) (curr : InjectionPoint)
      (stack res : List InjectionPoint),
      scanOk code stack.length = true →
      ∀ q, (q = curr ∨ q ∈ stack) → ∀ sc c0, q.cost_detail = .StaticCost sc c0 →
      ∃ c, (InjectionPoint.mk (.StaticCost sc c) q.position) ∈
        injectionsAux pos curr stack res code := by
  intro code
  induction code with
  | nil =>
    intro pos curr stack res hscan q hq sc c0 hdet
    simp [scanOk] at hscan
  | cons i rest ih =>
    intro pos curr stack res hscan q hq sc c0 hdet
    rw [injectionsAux_cons]
    by_cases hL : isLoopHeader i = true
    · have hBH : isBlockHeader i = true := by simp [isBlockHeader, hL]
      rw [if_pos hL]
      have hscan' : scanOk rest (stack.length + 1) = true := by
        rw [scanOk_cons, if_pos hBH] at hscan
        exact hscan
      rcases hq with rfl | hq
      · obtain ⟨c, hc⟩ := ih (pos + 1)
          (InjectionPoint.new_static_cost (pos + 1) .ReentrantBlockStart)
          (q.incrementCost (instruction_to_cost i) :: stack) res hscan'
          (q.incrementCost (instruction_to_cost i)) (Or.inr (by simp)) sc
          (c0 + instruction_to_cost i)
          (increment_cost_detail q sc c0 (instruction_to_cost i) hdet)
        exact ⟨c, hc⟩
      · exact ih (pos + 1)
          (InjectionPoint.new_static_cost (pos + 1) .ReentrantBlockStart)
          (curr.incrementCost (instruction_to_cost i) :: stack) res hscan' q
          (Or.inr (by simp [hq])) sc c0 hdet
    · rw [if_neg hL]
      by_cases hN : isNonReentrantHeader i = true
      · have hBH : isBlockHeader i = true := by simp [isBlockHeader, hN]
        rw [if_pos hN]
        have hscan' : scanOk rest (stack.length + 1) = true := by
          rw [scanOk_cons, if_pos hBH] at hscan
          exact hscan
        rcases hq with rfl | hq
        · obtain ⟨c, hc⟩ := ih (pos + 1)
            (InjectionPoint.new_static_cost (pos + 1) .NonReentrantBlockStart)
            (q.incrementCost (instruction_to_cost i) :: stack) res hscan'
            (q.incrementCost (instruction_to_cost i)) (Or.inr (by simp)) sc
            (c0 + instruction_to_cost i)
            (increment_cost_detail q sc c0 (instruction_to_cost i) hdet)
          exact ⟨c, hc⟩
        · exact ih (pos + 1)
            (InjectionPoint.new_static_cost (pos + 1) .NonReentrantBlockStart)
            (curr.incrementCost (instruction_to_cost i) :: stack) res hscan' q
            (Or.inr (by simp [hq])) sc c0 hdet
      · rw [if_neg hN]
        have hBH : isBlockHeader i = false := by
          simp [isBlockHeader]
          exact ⟨by simpa using hL, by simpa using hN⟩
        by_cases hC : isBlockCloser i = true
        · rw [if_pos hC]
          have hE : isEndInstr i = false := not_end_of_closer hC
          have hscan' : scanOk rest stack.length = true := by
            rw [scanOk_cons, hBH, hE] at hscan
            simpa using hscan
          rcases hq with rfl | hq
          · refine ⟨c0 + instruction_to_cost i, ?_⟩
            apply mem_injectionsAux_of_mem_res
            have : q.incrementCost (instruction_to_cost i) =
                InjectionPoint.mk (.StaticCost sc (c0 + instruction_to_cost i))
                  q.position := by
              have h1 := increment_cost_detail q sc c0 (instruction_to_cost i) hdet
              have h2 := increment_cost_position q (instruction_to_cost i)
              cases hinc : q.incrementCost (instruction_to_cost i)
              rw [hinc] at h1 h2
              simp_all
            rw [← this]
            exact List.mem_append_right res (by simp)
          · exact ih (pos + 1) _ stack _ hscan' q (Or.inr hq) sc c0 hdet
        · rw [if_neg hC]
          by_cases hE : isEndInstr i = true
          · rw [if_pos hE]
            cases stack with
            | nil =>
              rcases hq with rfl | hq
              · refine ⟨c0 + instruction_to_cost i, ?_⟩
                have : q.incrementCost (instruction_to_cost i) =
                    InjectionPoint.mk (.StaticCost sc (c0 + instruction_to_cost i))
                      q.position := by
                  have h1 := increment_cost_detail q sc c0 (instruction_to_cost i) hdet
                  have h2 := increment_cost_position q (instruction_to_cost i)
                  cases hinc : q.incrementCost (instruction_to_cost i)
                  rw [hinc] at h1 h2
                  simp_all
                rw [← this]
                exact List.mem_append_right res (by simp)
              · simp at hq
            | cons s stack' =>
              have hscan' : scanOk rest stack'.length = true := by
                rw [scanOk_cons, hBH] at hscan
                simp only [Bool.false_eq_true, if_false, hE, if_true] at hscan
                exact hscan
              rcases hq with rfl | hq
              · refine ⟨c0 + instruction_to_cost i, ?_⟩
                apply mem_injectionsAux_of_mem_res
                have : q.incrementCost (instruction_to_cost i) =
                    InjectionPoint.mk (.StaticCost sc (c0 + instruction_to_cost i))
                      q.position := by
                  have h1 := increment_cost_detail q sc c0 (instruction_to_cost i) hdet
                  have h2 := increment_cost_position q (instruction_to_cost i)
                  cases hinc : q.incrementCost (instruction_to_cost i)
                  rw [hinc] at h1 h2
                  simp_all
                rw [← this]
                exact List.mem_append_right res (by simp)
              · rcases List.mem_cons.mp hq with rfl | hq'
                · exact ih (pos + 1) q stack' _ hscan' q (Or.inl rfl) sc c0 hdet
                · exact ih (pos + 1) s stack' _ hscan' q (Or.inr hq') sc c0 hdet
          · rw [if_neg hE]
            have hE' : isEndInstr i = false := by simpa using hE
            have hscan' : scanOk rest stack.length = true := by
              rw [scanOk_cons, hBH, hE'] at hscan
              simpa using hscan
            by_cases hB : isBulkMemoryInstr i = true
            · rw [if_pos hB]
              rcases hq with rfl | hq
              · obtain ⟨c, hc⟩ := ih (pos + 1)
                  (q.incrementCost (instruction_to_cost i)) stack
                  (res ++ [InjectionPoint.new_dynamic_cost pos]) hscan'
                  (q.incrementCost (instruction_to_cost i)) (Or.inl rfl) sc
                  (c0 + instruction_to_cost i)
                  (increment_cost_detail q sc c0 (instruction_to_cost i) hdet)
                exact ⟨c, hc⟩
              · exact ih (pos + 1) _ stack _ hscan' q (Or.inr hq) sc c0 hdet
            · rw [if_neg hB]
              rcases hq with rfl | hq
              · obtain ⟨c, hc⟩ := ih (pos + 1)
                  (q.incrementCost (instruction_to_cost i)) stack res hscan'
                  (q.incrementCost (instruction_to_cost i)) (Or.inl rfl) sc
                  (c0 + instruction_to_cost i)
                  (increment_cost_detail q sc c0 (instruction_to_cost i) hdet)
                exact ⟨c, hc⟩
              · exact ih (pos + 1) _ stack res hscan' q (Or.inr hq) sc c0 hdet

theorem not_loop_of_nonreentrant {i : Operator} (h : isNonReentrantHeader i = true) :
    isLoopHeader i = false := by
  cases i <;> simp_all [isLoopHeader, isNonReentrantHeader]

theorem bulk_class {i : Operator} (h : isBulkMemoryInstr i = true) :
    isLoopHeader i = false ∧ isNonReentrantHeader i = false ∧
      isBlockCloser i = false ∧ isEndInstr i = false := by
  cases i <;> simp_all [isBulkMemoryInstr, isLoopHeader, isNonReentrantHeader,
    isBlockCloser, isEndInstr]

/-- On a well-bracketed remainder, one step of the walk either moves to a
successor state on the tail (still well bracketed) or the tail is empty. -/
theorem injectionsAux_step_or_last (i : Operator) (rest : List Operator)
    (pos : Nat) (curr : InjectionPoint) (stack res : List InjectionPoint)
    (hscan : scanOk (i :: rest) stack.length = true) :
    (∃ curr' stack' res',
       injectionsAux pos curr stack res (i :: rest) =
         injectionsAux (pos + 1) curr' stack' res' rest ∧
       scanOk rest stack'.length = true) ∨ rest = [] := by
  rw [injectionsAux_cons]
  by_cases hL : isLoopHeader i = true
  · have hBH : isBlockHeader i = true := by simp [isBlockHeader, hL]
    rw [if_pos hL]
    rw [scanOk_cons, if_pos hBH] at hscan
    exact Or.inl ⟨_, _, _, rfl, hscan⟩
  · rw [if_neg hL]
    by_cases hN : isNonReentrantHeader i = true
    · have hBH : isBlockHeader i = true := by simp [isBlockHeader, hN]
      rw [if_pos hN]
      rw [scanOk_cons, if_pos hBH] at hscan
      exact Or.inl ⟨_, _, _, rfl, hscan⟩
    · rw [if_neg hN]
      have hBH : isBlockHeader i = false := by
        simp [isBlockHeader]
        exact ⟨by simpa using hL, by simpa using hN⟩
      by_cases hC : isBlockCloser i = true
      · rw [if_pos hC]
        rw [scanOk_cons, hBH, not_end_of_closer hC] at hscan
        simp only [Bool.false_eq_true, if_false] at hscan
        exact Or.inl ⟨_, _, _, rfl, hscan⟩
      · rw [if_neg hC]
        by_cases hE : isEndInstr i = true
        · rw [if_pos hE]
          rw [scanOk_cons, hBH] at hscan
          simp only [Bool.false_eq_true, if_false, hE, if_true] at hscan
          cases stack with
          | nil => exact Or.inr (by simpa using hscan)
          | cons s stack' => exact Or.inl ⟨_, _, _, rfl, hscan⟩
        · rw [if_neg hE]
          have hE' : isEndInstr i = false := by simpa using hE
          rw [scanOk_cons, hBH, hE'] at hscan
          simp only [Bool.false_eq_true, if_false] at hscan
          by_cases hB : isBulkMemoryInstr i = true
          · rw [if_pos hB]
            exact Or.inl ⟨_, _, _, rfl, hscan⟩
          · rw [if_neg hB]
            exact Or.inl ⟨_, _, _, rfl, hscan⟩

/-- On a well-bracketed remainder, every loop header, `if`/`block` header
and bulk memory instruction produces its injection point in the output. -/
theorem header_and_bulk_points :
    ∀ (code : List Operator) (pos : Nat) (curr : InjectionPoint)
      (stack res : List InjectionPoint),
      scanOk code stack.length = true →
      ∀ j op, code[j]? = some op →
        ((isLoopHeader op = true →
           ∃ c, (InjectionPoint.mk (.StaticCost .ReentrantBlockStart c) (pos + j + 1)) ∈
             injectionsAux pos curr stack res code)
        ∧ (isNonReentrantHeader op = true →
           ∃ c, (InjectionPoint.mk (.StaticCost .NonReentrantBlockStart c) (pos + j + 1)) ∈
             injectionsAux pos curr stack res code)
        ∧ (isBulkMemoryInstr op = true →
           (InjectionPoint.mk .DynamicCost (pos + j)) ∈
             injectionsAux pos curr stack res code)) := by
  intro code
  induction code with
  | nil =>
    intro pos curr stack res hscan j op hop
    simp at hop
  | cons i rest ih =>
    intro pos curr stack res hscan j op hop
    cases j with
    | zero =>
      rw [List.getElem?_cons_zero] at hop
      have hop' : i = op := by injection hop
      subst hop'
      refine ⟨?_, ?_, ?_⟩
      · intro hL
        have hBH : isBlockHeader i = true := by simp [isBlockHeader, hL]
        rw [injectionsAux_cons, if_pos hL]
        rw [scanOk_cons, if_pos hBH] at hscan
        have h := open_points_survive rest (pos + 1)
          (InjectionPoint.new_static_cost (pos + 1) .ReentrantBlockStart)
          (curr.incrementCost (instruction_to_cost i) :: stack) res hscan
          (InjectionPoint.new_static_cost (pos + 1) .ReentrantBlockStart)
          (Or.inl rfl) .ReentrantBlockStart 0 rfl
        simpa [Nat.add_zero] using h
      · intro hN
        have hL : isLoopHeader i = false := not_loop_of_nonreentrant hN
        have hBH : isBlockHeader i = true := by simp [isBlockHeader, hN]
        rw [injectionsAux_cons, hL]
        simp only [Bool.false_eq_true, if_false]
        rw [if_pos hN]
        rw [scanOk_cons, if_pos hBH] at hscan
        have h := open_points_survive rest (pos + 1)
          (InjectionPoint.new_static_cost (pos + 1) .NonReentrantBlockStart)
          (curr.incrementCost (instruction_to_cost i) :: stack) res hscan
          (InjectionPoint.new_static_cost (pos + 1) .NonReentrantBlockStart)
          (Or.inl rfl) .NonReentrantBlockStart 0 rfl
        simpa [Nat.add_zero] using h
      · intro hB
        obtain ⟨hL, hN, hC, hE⟩ := bulk_class hB
        rw [injectionsAux_cons, hL, hN, hC, hE]
        simp only [Bool.false_eq_true, if_false]
        rw [if_pos hB]
        have h := mem_injectionsAux_of_mem_res rest (pos + 1)
          (curr.incrementCost (instruction_to_cost i)) stack
          (res ++ [InjectionPoint.new_dynamic_cost pos])
          (r := InjectionPoint.new_dynamic_cost pos)
          (List.mem_append_right res (by simp))
        simpa [InjectionPoint.new_dynamic_cost, Nat.add_zero] using h
    | succ j' =>
      rw [List.getElem?_cons_succ] at hop
      rcases injectionsAux_step_or_last i rest pos curr stack res hscan with
        ⟨curr', stack', res', heq, hscan'⟩ | hnil
      · rw [heq]
        have h := ih (pos + 1) curr' stack' res' hscan' j' op hop
        have ha1 : pos + 1 + j' = pos + (j' + 1) := by omega
        rw [ha1] at h
        exact h
      · subst hnil
        simp at hop

/-- Dynamic-cost points in the output either were already accumulated or sit
exactly at the position of a bulk memory instruction. -/
theorem dynamic_only_at_bulk :
    ∀ (code : List Operator) (pos : Nat) (curr : InjectionPoint)
      (stack res : List InjectionPoint) (q : InjectionPoint),
      (∃ sc c, curr.cost_detail = .StaticCost sc c) →
      (∀ s ∈ stack, ∃ sc c, s.cost_detail = .StaticCost sc c) →
      q ∈ injectionsAux pos curr stack res code →
      q.cost_detail = .DynamicCost →
      q ∈ res ∨ ∃ j op, code[j]? = some op ∧ isBulkMemoryInstr op = true ∧
        q.position = pos + j := by
  intro code
  induction code with
  | nil =>
    intro pos curr stack res q _ _ hq _
    exact Or.inl hq
  | cons i rest ih =>
    intro pos curr stack res q hcurr hstack hq hdyn
    have hcurr' : ∃ sc c, (curr.incrementCost (instruction_to_cost i)).cost_detail =
        .StaticCost sc c := by
      obtain ⟨sc, c, h⟩ := hcurr
      exact ⟨sc, c + instruction_to_cost i, increment_cost_detail curr sc c _ h⟩
    have hqinc : q ≠ curr.incrementCost (instruction_to_cost i) := by
      intro hcon
      obtain ⟨sc, c, h⟩ := hcurr'
      rw [← hcon, hdyn] at h
      exact InjectionPointCostDetail.noConfusion h
    rw [injectionsAux_cons] at hq
    by_cases hL : isLoopHeader i = true
    · rw [if_pos hL] at hq
      rcases ih (pos + 1) _ _ res q ⟨_, _, rfl⟩
        (by
          intro s hs
          rcases List.mem_cons.mp hs with rfl | hs'
          · exact hcurr'
          · exact hstack s hs') hq hdyn with h | ⟨j, op, hop, hbulk, hpos⟩
      · exact Or.inl h
      · exact Or.inr ⟨j + 1, op, by simpa using hop, hbulk, by omega⟩
    · rw [if_neg hL] at hq
      by_cases hN : isNonReentrantHeader i = true
      · rw [if_pos hN] at hq
        rcases ih (pos + 1) _ _ res q ⟨_, _, rfl⟩
          (by
            intro s hs
            rcases List.mem_cons.mp hs with rfl | hs'
            · exact hcurr'
            · exact hstack s hs') hq hdyn with h | ⟨j, op, hop, hbulk, hpos⟩
        · exact Or.inl h
        · exact Or.inr ⟨j + 1, op, by simpa using hop, hbulk, by omega⟩
      · rw [if_neg hN] at hq
        by_cases hC : isBlockCloser i = true
        · rw [if_pos hC] at hq
          rcases ih (pos + 1) _ stack _ q ⟨_, _, rfl⟩ hstack hq hdyn with
            h | ⟨j, op, hop, hbulk, hpos⟩
          · rcases List.mem_append.mp h with h' | h'
            · exact Or.inl h'
            · simp at h'
              exact absurd h' hqinc
          · exact Or.inr ⟨j + 1, op, by simpa using hop, hbulk, by omega⟩
        · rw [if_neg hC] at hq
          by_cases hE : isEndInstr i = true
          · rw [if_pos hE] at hq
            cases stack with
            | nil =>
              rcases List.mem_append.mp hq with h' | h'
              · exact Or.inl h'
              · simp at h'
                exact absurd h' hqinc
            | cons s stack' =>
              rcases ih (pos + 1) s stack' _ q
                (hstack s (by simp)) (fun t ht => hstack t (by simp [ht])) hq hdyn with
                h | ⟨j, op, hop, hbulk, hpos⟩
              · rcases List.mem_append.mp h with h' | h'
                · exact Or.inl h'
                · simp at h'
                  exact absurd h' hqinc
              · exact Or.inr ⟨j + 1, op, by simpa using hop, hbulk, by omega⟩
          · rw [if_neg hE] at hq
            by_cases hB : isBulkMemoryInstr i = true
            · rw [if_pos hB] at hq
              rcases ih (pos + 1) _ stack _ q hcurr' hstack hq hdyn with
                h | ⟨j, op, hop, hbulk, hpos⟩
              · rcases List.mem_append.mp h with h' | h'
                · exact Or.inl h'
                · simp at h'
                  subst h'
                  exact Or.inr ⟨0, i, by simp, hB, by simp [InjectionPoint.new_dynamic_cost]⟩
              · exact Or.inr ⟨j + 1, op, by simpa using hop, hbulk, by omega⟩
            · rw [if_neg hB] at hq
              rcases ih (pos + 1) _ stack res q hcurr' hstack hq hdyn with
                h | ⟨j, op, hop, hbulk, hpos⟩
              · exact Or.inl h
              · exact Or.inr ⟨j + 1, op, by simpa using hop, hbulk, by omega⟩

theorem costFrom_header0 {i : Operator} (h : isBlockHeader i = true)
    (cs : List Operator) :
    costFrom (i :: cs) 0 = instruction_to_cost i + costFrom cs 1 := by
  rw [costFrom_cons, if_pos h]
  simp

theorem costFrom_header_ge1 {i : Operator} (h : isBlockHeader i = true)
    (cs : List Operator) (d : Nat) :
    costFrom (i :: cs) (d + 1) = costFrom cs (d + 2) := by
  rw [costFrom_cons, if_pos h]
  simp

theorem costFrom_closer0 {i : Operator} (h : isBlockCloser i = true)
    (cs : List Operator) :
    costFrom (i :: cs) 0 = instruction_to_cost i := by
  rw [costFrom_cons, not_header_of_closer h]
  simp only [Bool.false_eq_true, if_false]
  rw [if_pos h]
  simp

theorem costFrom_closer_ge1 {i : Operator} (h : isBlockCloser i = true)
    (cs : List Operator) (d : Nat) :
    costFrom (i :: cs) (d + 1) = costFrom cs (d + 1) := by
  rw [costFrom_cons, not_header_of_closer h]
  simp only [Bool.false_eq_true, if_false]
  rw [if_pos h]
  simp

theorem costFrom_end0 {i : Operator} (h : isEndInstr i = true)
    (cs : List Operator) : costFrom (i :: cs) 0 = 0 := by
  rw [costFrom_cons, not_header_of_end h]
  simp only [Bool.false_eq_true, if_false]
  rw [not_closer_of_end h]
  simp only [Bool.false_eq_true, if_false]
  rw [if_pos h]

theorem costFrom_end_succ {i : Operator} (h : isEndInstr i = true)
    (cs : List Operator) (d : Nat) :
    costFrom (i :: cs) (d + 1) = costFrom cs d := by
  rw [costFrom_cons, not_header_of_end h]
  simp only [Bool.false_eq_true, if_false]
  rw [not_closer_of_end h]
  simp only [Bool.false_eq_true, if_false]
  rw [if_pos h]

theorem costFrom_other0 {i : Operator} (hBH : isBlockHeader i = false)
    (hC : isBlockCloser i = false) (hE : isEndInstr i = false)
    (cs : List Operator) :
    costFrom (i :: cs) 0 = instruction_to_cost i + costFrom cs 0 := by
  rw [costFrom_cons, hBH]
  simp only [Bool.false_eq_true, if_false]
  rw [hC]
  simp only [Bool.false_eq_true, if_false]
  rw [hE]
  simp

theorem costFrom_other_ge1 {i : Operator} (hBH : isBlockHeader i = false)
    (hC : isBlockCloser i = false) (hE : isEndInstr i = false)
    (cs : List Operator) (d : Nat) :
    costFrom (i :: cs) (d + 1) = costFrom cs (d + 1) := by
  rw [costFrom_cons, hBH]
  simp only [Bool.false_eq_true, if_false]
  rw [hC]
  simp only [Bool.false_eq_true, if_false]
  rw [hE]
  simp

theorem end_cost_zero {i : Operator} (h : isEndInstr i = true) :
    instruction_to_cost i = 0 := by
  cases i <;> simp_all [isEndInstr, instruction_to_cost]

/-- The cost invariant of the suspended stack: the entry at (1-based) depth
`d` from the top still accumulates `costFrom code' d` before closing, and
its final cost is the block cost at its own position. -/
def stackCostInv (code code' : List Operator) : List InjectionPoint → Nat → Prop
  | [], _ => True
  | q :: qs, d =>
    (∀ sc c0, q.cost_detail = .StaticCost sc c0 →
      c0 + costFrom code' d = costFrom (code.drop q.position) 0) ∧
    stackCostInv code code' qs (d + 1)

theorem stackCostInv_mono (code code₁ code₂ : List Operator) :
    ∀ (qs : List InjectionPoint) (d₁ d₂ : Nat),
      (∀ t, costFrom code₁ (d₁ + t) = costFrom code₂ (d₂ + t)) →
      stackCostInv code code₁ qs d₁ → stackCostInv code code₂ qs d₂ := by
  intro qs
  induction qs with
  | nil => intro d₁ d₂ _ _; trivial
  | cons q qs ih =>
    rintro d₁ d₂ hco ⟨hq, hqs⟩
    refine ⟨?_, ?_⟩
    · intro sc c0 hdet
      have h0 := hco 0
      simp only [Nat.add_zero] at h0
      rw [← h0]
      exact hq sc c0 hdet
    · refine ih (d₁ + 1) (d₂ + 1) ?_ hqs
      intro t
      have h := hco (1 + t)
      rw [show d₁ + (1 + t) = d₁ + 1 + t by omega,
        show d₂ + (1 + t) = d₂ + 1 + t by omega] at h
      exact h

theorem incrementCost_detail_inv (q : InjectionPoint) (a : Nat) (sc : Scope) (c : Nat)
    (h : (q.incrementCost a).cost_detail = .StaticCost sc c) :
    ∃ c₂, q.cost_detail = .StaticCost sc c₂ ∧ c = c₂ + a := by
  cases hq : q.cost_detail with
  | DynamicCost =>
    simp [InjectionPoint.incrementCost, InjectionPointCostDetail.increment_cost, hq] at h
  | StaticCost sc₂ c₂ =>
    have hinc := increment_cost_detail q sc₂ c₂ a hq
    rw [hinc] at h
    injection h with h1 h2
    exact ⟨c₂, by rw [h1], h2.symm⟩

/-- Every static point reaching the output carries exactly the block cost at
its position: the per-instruction costs of its basic block's own
instructions, up to and including its closing instruction. -/
theorem cost_values :
    ∀ (code' : List Operator) (pos : Nat) (curr : InjectionPoint)
      (stack res : List InjectionPoint) (code : List Operator),
      code.drop pos = code' →
      (∀ r ∈ res, ∀ sc c, r.cost_detail = .StaticCost sc c →
        c = costFrom (code.drop r.position) 0) →
      (∀ sc c0, curr.cost_detail = .StaticCost sc c0 →
        c0 + costFrom code' 0 = costFrom (code.drop curr.position) 0) →
      stackCostInv code code' stack 1 →
      ∀ q ∈ injectionsAux pos curr stack res code',
        ∀ sc c, q.cost_detail = .StaticCost sc c →
        c = costFrom (code.drop q.position) 0 := by
  intro code'
  induction code' with
  | nil =>
    intro pos curr stack res code hdrop hres hcurr hstk q hq sc c hdet
    exact hres q hq sc c hdet
  | cons i cs ih =>
    intro pos curr stack res code hdrop hres hcurr hstk q hq sc c hdet
    have hdrop1 : code.drop (pos + 1) = cs := drop_eq_cons_succ hdrop
    rw [injectionsAux_cons] at hq
    by_cases hL : isLoopHeader i = true
    · have hBH : isBlockHeader i = true := by simp [isBlockHeader, hL]
      rw [if_pos hL] at hq
      refine ih (pos + 1) _ _ res code hdrop1 hres ?_ ?_ q hq sc c hdet
      · intro sc' c0 h
        injection h with h1 h2
        subst h1
        subst h2
        simp [InjectionPoint.new_static_cost, hdrop1]
      · refine ⟨?_, ?_⟩
        · intro sc' c0 h
          obtain ⟨c₂, hc₂, rfl⟩ := incrementCost_detail_inv curr _ sc' c0 h
          have hT := hcurr sc' c₂ hc₂
          rw [costFrom_header0 hBH] at hT
          rw [increment_cost_position]
          omega
        · refine stackCostInv_mono code (i :: cs) cs stack 1 2 ?_ hstk
          intro t
          rw [show 1 + t = t + 1 by omega, show 2 + t = t + 2 by omega]
          exact costFrom_header_ge1 hBH cs t
    · rw [if_neg hL] at hq
      by_cases hN : isNonReentrantHeader i = true
      · have hBH : isBlockHeader i = true := by simp [isBlockHeader, hN]
        rw [if_pos hN] at hq
        refine ih (pos + 1) _ _ res code hdrop1 hres ?_ ?_ q hq sc c hdet
        · intro sc' c0 h
          injection h with h1 h2
          subst h1
          subst h2
          simp [InjectionPoint.new_static_cost, hdrop1]
        · refine ⟨?_, ?_⟩
          · intro sc' c0 h
            obtain ⟨c₂, hc₂, rfl⟩ := incrementCost_detail_inv curr _ sc' c0 h
            have hT := hcurr sc' c₂ hc₂
            rw [costFrom_header0 hBH] at hT
            rw [increment_cost_position]
            omega
          · refine stackCostInv_mono code (i :: cs) cs stack 1 2 ?_ hstk
            intro t
            rw [show 1 + t = t + 1 by omega, show 2 + t = t + 2 by omega]
            exact costFrom_header_ge1 hBH cs t
      · rw [if_neg hN] at hq
        have hBH : isBlockHeader i = false := by
          simp [isBlockHeader]
          exact ⟨by simpa using hL, by simpa using hN⟩
        by_cases hC : isBlockCloser i = true
        · rw [if_pos hC] at hq
          refine ih (pos + 1) _ stack _ code hdrop1 ?_ ?_ ?_ q hq sc c hdet
          · intro r hr sc' c' hdet'
            rcases List.mem_append.mp hr with hr' | hr'
            · exact hres r hr' sc' c' hdet'
            · simp only [List.mem_singleton] at hr'
              subst hr'
              obtain ⟨c₂, hc₂, rfl⟩ := incrementCost_detail_inv curr _ sc' c' hdet'
              have hT := hcurr sc' c₂ hc₂
              rw [costFrom_closer0 hC] at hT
              rw [increment_cost_position]
              exact hT
          · intro sc' c0 h
            injection h with h1 h2
            subst h1
            subst h2
            simp [InjectionPoint.new_static_cost, hdrop1]
          · refine stackCostInv_mono code (i :: cs) cs stack 1 1 ?_ hstk
            intro t
            rw [show 1 + t = t + 1 by omega]
            exact costFrom_closer_ge1 hC cs t
        · rw [if_neg hC] at hq
          by_cases hE : isEndInstr i = true
          · rw [if_pos hE] at hq
            cases stack with
            | nil =>
              rcases List.mem_append.mp hq with hr' | hr'
              · exact hres q hr' sc c hdet
              · simp only [List.mem_singleton] at hr'
                subst hr'
                obtain ⟨c₂, hc₂, rfl⟩ := incrementCost_detail_inv curr _ sc c hdet
                have hT := hcurr sc c₂ hc₂
                rw [costFrom_end0 hE] at hT
                rw [increment_cost_position, end_cost_zero hE]
                omega
            | cons s stack' =>
              refine ih (pos + 1) s stack' _ code hdrop1 ?_ ?_ ?_ q hq sc c hdet
              · intro r hr sc' c' hdet'
                rcases List.mem_append.mp hr with hr' | hr'
                · exact hres r hr' sc' c' hdet'
                · simp only [List.mem_singleton] at hr'
                  subst hr'
                  obtain ⟨c₂, hc₂, rfl⟩ := incrementCost_detail_inv curr _ sc' c' hdet'
                  have hT := hcurr sc' c₂ hc₂
                  rw [costFrom_end0 hE] at hT
                  rw [increment_cost_position, end_cost_zero hE]
                  omega
              · intro sc' c0 h
                have hs := hstk.1 sc' c0 h
                rw [show (1 : Nat) = 0 + 1 by omega, costFrom_end_succ hE cs 0] at hs
                exact hs
              · refine stackCostInv_mono code (i :: cs) cs stack' 2 1 ?_ hstk.2
                intro t
                rw [show 2 + t = (1 + t) + 1 by omega]
                rw [costFrom_end_succ hE cs (1 + t)]
          · rw [if_neg hE] at hq
            have hE' : isEndInstr i = false := by simpa using hE
            have hC' : isBlockCloser i = false := by simpa using hC
            by_cases hB : isBulkMemoryInstr i = true
            · rw [if_pos hB] at hq
              refine ih (pos + 1) _ stack _ code hdrop1 ?_ ?_ ?_ q hq sc c hdet
              · intro r hr sc' c' hdet'
                rcases List.mem_append.mp hr with hr' | hr'
                · exact hres r hr' sc' c' hdet'
                · simp only [List.mem_singleton] at hr'
                  subst hr'
                  simp [InjectionPoint.new_dynamic_cost] at hdet'
              · intro sc' c0 h
                obtain ⟨c₂, hc₂, rfl⟩ := incrementCost_detail_inv curr _ sc' c0 h
                have hT := hcurr sc' c₂ hc₂
                rw [costFrom_other0 hBH hC' hE'] at hT
                rw [increment_cost_position]
                omega
              · refine stackCostInv_mono code (i :: cs) cs stack 1 1 ?_ hstk
                intro t
                rw [show 1 + t = t + 1 by omega]
                exact costFrom_other_ge1 hBH hC' hE' cs t
            · rw [if_neg hB] at hq
              refine ih (pos + 1) _ stack res code hdrop1 hres ?_ ?_ q hq sc c hdet
              · intro sc' c0 h
                obtain ⟨c₂, hc₂, rfl⟩ := incrementCost_detail_inv curr _ sc' c0 h
                have hT := hcurr sc' c₂ hc₂
                rw [costFrom_other0 hBH hC' hE'] at hT
                rw [increment_cost_position]
                omega
              · refine stackCostInv_mono code (i :: cs) cs stack 1 1 ?_ hstk
                intro t
                rw [show 1 + t = t + 1 by omega]
                exact costFrom_other_ge1 hBH hC' hE' cs t

/-- Membership in the filtered point list, unfolded to the spec's
keep-criterion. -/
theorem mem_surviving_iff (points : List InjectionPoint) (q : InjectionPoint) :
    q ∈ surviving_points points ↔
      q ∈ points ∧
        (q.cost_detail = .DynamicCost ∨
         (∃ c, q.cost_detail = .StaticCost .ReentrantBlockStart c) ∨
         (∃ sc c, q.cost_detail = .StaticCost sc c ∧ 0 < c)) := by
  unfold surviving_points
  rw [List.mem_filter]
  constructor
  · rintro ⟨hq, hpred⟩
    refine ⟨hq, ?_⟩
    cases hd : q.cost_detail with
    | DynamicCost => exact Or.inl rfl
    | StaticCost sc c =>
      cases sc with
      | ReentrantBlockStart => exact Or.inr (Or.inl ⟨c, rfl⟩)
      | NonReentrantBlockStart =>
        rw [hd] at hpred
        simp at hpred
        exact Or.inr (Or.inr ⟨_, c, rfl, hpred⟩)
      | BlockEnd =>
        rw [hd] at hpred
        simp at hpred
        exact Or.inr (Or.inr ⟨_, c, rfl, hpred⟩)
  · rintro ⟨hq, hdisj⟩
    refine ⟨hq, ?_⟩
    rcases hdisj with h | ⟨c, h⟩ | ⟨sc, c, h, hc⟩
    · simp [h]
    · simp [h]
    · cases sc <;> simp [h, hc]

/-! ## Lemmas about index renumbering -/

theorem mutate_function_indices_shift (m : Module) (k : Nat) :
    mutate_function_indices m (· + k) =
      { m with
        code_sections := m.code_sections.map fun b =>
          ⟨b.locals, b.instructions.map (shiftOperator k)⟩,
        exports := m.exports.map (shiftExport k),
        elements := m.elements.map (shiftElement k),
        start := m.start.map (· + k) } := by
  unfold mutate_function_indices
  congr 1 <;>
    (apply List.map_congr_left
     intro x _
     first
       | rfl
       | (cases x <;> rfl)
       | (congr 1
          apply List.map_congr_left
          intro i _
          cases i <;> rfl))

theorem add_type_imports (m : Module) (ty : FuncType) :
    (add_type m ty).1.imports = m.imports := by
  unfold add_type
  rcases h : m.types.findIdx? (fun msig => msig = ty) with _ | _ <;> simp [h]

theorem add_type_functions (m : Module) (ty : FuncType) :
    (add_type m ty).1.functions = m.functions := by
  unfold add_type
  rcases h : m.types.findIdx? (fun msig => msig = ty) with _ | _ <;> simp [h]

theorem mutate_imports (m : Module) (f : Nat → Nat) :
    (mutate_function_indices m f).imports = m.imports := rfl

theorem mutate_functions (m : Module) (f : Nat → Nat) :
    (mutate_function_indices m f).functions = m.functions := rfl

/-- The function index space after `inject_helper_functions`: the injected
helper imports, followed by the original function index space. -/
theorem funcIds_inject_helper (m : Module) (flag : FlagStatus) :
    funcIds (inject_helper_functions m flag) =
      (if flag = .Enabled then
         [Sum.inl (INSTRUMENTED_FUN_MODULE, OUT_OF_INSTRUCTIONS_FUN_NAME),
          Sum.inl (INSTRUMENTED_FUN_MODULE, UPDATE_MEMORY_FUN_NAME),
          Sum.inl (INSTRUMENTED_FUN_MODULE, TRY_GROW_STABLE_MEMORY_FUN_NAME),
          Sum.inl (INSTRUMENTED_FUN_MODULE, DEALLOCATE_PAGES_NAME),
          Sum.inl (INSTRUMENTED_FUN_MODULE, INTERNAL_TRAP_FUN_NAME)]
       else
         [Sum.inl (INSTRUMENTED_FUN_MODULE, OUT_OF_INSTRUCTIONS_FUN_NAME),
          Sum.inl (INSTRUMENTED_FUN_MODULE, UPDATE_MEMORY_FUN_NAME)]) ++ funcIds m := by
  cases flag <;>
    · unfold inject_helper_functions funcIds funcImports
      simp [mutate_imports, mutate_functions, add_type_imports, add_type_functions,
        List.filter_append, isFuncImport]

/-! ## Lemmas about `inject_update_available_memory` -/

theorem memoryGrowPositions_ge (rest : List Operator) :
    ∀ k p, p ∈ memoryGrowPositions rest k → k ≤ p := by
  induction rest with
  | nil => intro k p hp; simp [memoryGrowPositions] at hp
  | cons i rest ih =>
    intro k p hp
    unfold memoryGrowPositions at hp
    rw [List.mem_append] at hp
    rcases hp with hp | hp
    · rcases hi : isMemoryGrow i with _ | _ <;> rw [hi] at hp <;> simp at hp
      omega
    · exact Nat.le_of_succ_le (ih (k + 1) p hp)

theorem memoryGrowPositions_nil_iff (rest : List Operator) :
    ∀ k, memoryGrowPositions rest k = [] ↔ rest.any isMemoryGrow = false := by
  induction rest with
  | nil => intro k; simp [memoryGrowPositions]
  | cons i rest ih =>
    intro k
    unfold memoryGrowPositions
    rcases hi : isMemoryGrow i with _ | _ <;> simp [hi, ih (k + 1)]

theorem spliceGrowPoints_cons_skip (ix : Nat) (orig : List Operator)
    (i : Operator) (rest' : List Operator) :
    ∀ (ps : List Nat) (k : Nat), orig.drop k = i :: rest' →
      (∀ p ∈ ps, k + 1 ≤ p) →
      spliceGrowPoints ix orig ps k = i :: spliceGrowPoints ix orig ps (k + 1) := by
  intro ps k hdrop hge
  have hdrop1 : orig.drop (k + 1) = rest' := drop_eq_cons_succ hdrop
  cases ps with
  | nil =>
    simp only [spliceGrowPoints]
    rw [hdrop, hdrop1]
  | cons p ps =>
    have hp : k + 1 ≤ p := hge p (by simp)
    simp only [spliceGrowPoints]
    rw [hdrop, hdrop1]
    have hsub : p - k = (p - (k + 1)) + 1 := by omega
    rw [hsub, List.take_succ_cons]
    simp

theorem spliceGrowPoints_eq_model (ix : Nat) (orig : List Operator) :
    ∀ (rest : List Operator) (k : Nat), orig.drop k = rest →
      spliceGrowPoints ix orig (memoryGrowPositions rest k) k = growGuardModel ix rest := by
  intro rest
  induction rest with
  | nil =>
    intro k hdrop
    simp only [memoryGrowPositions, spliceGrowPoints]
    rw [hdrop]
    rfl
  | cons i rest' ih =>
    intro k hdrop
    have hdrop1 : orig.drop (k + 1) = rest' := drop_eq_cons_succ hdrop
    have hget : orig.getD k .nop = i := getD_of_drop_eq_cons hdrop
    rcases hi : isMemoryGrow i with _ | _
    · have hpos : memoryGrowPositions (i :: rest') k = memoryGrowPositions rest' (k + 1) := by
        simp [memoryGrowPositions, hi]
      rw [hpos,
        spliceGrowPoints_cons_skip ix orig i rest' _ k hdrop
          (fun p hp => memoryGrowPositions_ge rest' (k + 1) p hp),
        ih (k + 1) hdrop1]
      unfold growGuardModel
      rw [List.flatMap_cons]
      cases i <;> simp_all [isMemoryGrow, growGuardModel]
    · obtain ⟨mem, rfl⟩ : ∃ mem, i = .memoryGrow mem := by
        cases i <;> simp_all [isMemoryGrow]
      have hpos : memoryGrowPositions (Operator.memoryGrow mem :: rest') k =
          k :: memoryGrowPositions rest' (k + 1) := by
        simp [memoryGrowPositions, isMemoryGrow]
      rw [hpos]
      simp only [spliceGrowPoints]
      rw [Nat.sub_self, List.take_zero, List.nil_append, ih (k + 1) hdrop1, hget]
      unfold growGuardModel
      rw [List.flatMap_cons]

example :
    inject_update_available_memory
        ⟨[(1, .i64)], [.memoryGrow 0, .nop, .memoryGrow 0]⟩ ⟨[.i32], [.i32]⟩ =
      ⟨[(1, .i64), (1, .i32)],
       [.localTee 2, .memoryGrow 0, .localGet 2, .call 1, .nop,
        .localTee 2, .memoryGrow 0, .localGet 2, .call 1]⟩ := by rfl

/-- C5: the growth-guard pass rewrites each `memory.grow` site so that the
requested delta is cached in a scratch local (`local.tee`), the original
growth instruction executes, and then the `update_available_memory` host
host function is called with the requested delta reloaded and the post-growth
result on the stack, the call's result replacing the growth instruction's
result; a function with no `memory.grow` is left unchanged, and several
sites are each guarded independently with the same scratch local (the
parameter count plus the total local count, appended once). -/
theorem C5_inject_update_available_memory_guards_growth
    (func_body : Body) (func_type : FuncType) :
    inject_update_available_memory func_body func_type =
      if func_body.instructions.any isMemoryGrow then
        { locals := func_body.locals ++ [(1, ValType.i32)],
          instructions :=
            growGuardModel (func_type.params.length + (func_body.locals.map Prod.fst).sum)
              func_body.instructions }
      else func_body := by
  unfold inject_update_available_memory
  rcases hany : func_body.instructions.any isMemoryGrow with _ | _
  · have : memoryGrowPositions func_body.instructions 0 = [] :=
      (memoryGrowPositions_nil_iff func_body.instructions 0).mpr hany
    simp [this]
  · have hne : ¬ memoryGrowPositions func_body.instructions 0 = [] := by
      intro hcon
      rw [(memoryGrowPositions_nil_iff func_body.instructions 0).mp hcon] at hany
      exact Bool.false_ne_true hany
    simp only [List.isEmpty_iff, hne, if_false, if_true]
    rw [spliceGrowPoints_eq_model _ func_body.instructions func_body.instructions 0 rfl]

/-! ## Lemmas about `inject_mem_barrier` -/

theorem storePositions_ge (rest : List Operator) :
    ∀ k p, p ∈ storePositions rest k → k ≤ p := by
  induction rest with
  | nil => intro k p hp; simp [storePositions] at hp
  | cons i rest ih =>
    intro k p hp
    unfold storePositions at hp
    rw [List.mem_append] at hp
    rcases hp with hp | hp
    · rcases hi : isStoreInstr i with _ | _ <;> rw [hi] at hp <;> simp at hp
      omega
    · exact Nat.le_of_succ_le (ih (k + 1) p hp)

theorem storePositions_nil_iff (rest : List Operator) :
    ∀ k, storePositions rest k = [] ↔ rest.any isStoreInstr = false := by
  induction rest with
  | nil => intro k; simp [storePositions]
  | cons i rest ih =>
    intro k
    unfold storePositions
    rcases hi : isStoreInstr i with _ | _ <;> simp [hi, ih (k + 1)]

/-- `write_barrier_instructions` matches the spec's description of the
barrier: the page-aligned case uses the statically divided offset, the
general case adds the offset before shifting. -/
theorem write_barrier_eq_barrierModel (offset val_idx addr_idx : Nat) :
    write_barrier_instructions offset val_idx addr_idx =
      barrierModel offset val_idx addr_idx := by
  unfold write_barrier_instructions barrierModel
  by_cases h : offset % PAGE_SIZE = 0
  · simp only [h, if_pos]
    have : offset >>> page_size_shift = offset / PAGE_SIZE := by
      rw [Nat.shiftRight_eq_div_pow]
      norm_num [page_size_shift, PAGE_SIZE]
    rw [this]
  · simp only [h, if_neg]
    simp

theorem spliceStorePoints_cons_skip (a v32 v64 vf32 vf64 : Nat) (orig : List Operator)
    (i : Operator) (rest' : List Operator) :
    ∀ (ps : List Nat) (k : Nat), orig.drop k = i :: rest' →
      (∀ p ∈ ps, k + 1 ≤ p) →
      spliceStorePoints a v32 v64 vf32 vf64 orig ps k =
        i :: spliceStorePoints a v32 v64 vf32 vf64 orig ps (k + 1) := by
  intro ps k hdrop hge
  have hdrop1 : orig.drop (k + 1) = rest' := drop_eq_cons_succ hdrop
  cases ps with
  | nil =>
    simp only [spliceStorePoints]
    rw [hdrop, hdrop1]
  | cons p ps =>
    have hp : k + 1 ≤ p := hge p (by simp)
    simp only [spliceStorePoints]
    rw [hdrop, hdrop1]
    have hsub : p - k = (p - (k + 1)) + 1 := by omega
    rw [hsub, List.take_succ_cons]
    simp

theorem spliceStorePoints_eq_model (a v32 v64 vf32 vf64 : Nat) (orig : List Operator) :
    ∀ (rest : List Operator) (k : Nat), orig.drop k = rest →
      spliceStorePoints a v32 v64 vf32 vf64 orig (storePositions rest k) k =
        memBarrierModel a v32 v64 vf32 vf64 rest := by
  intro rest
  induction rest with
  | nil =>
    intro k hdrop
    simp only [storePositions, spliceStorePoints]
    rw [hdrop]
    rfl
  | cons i rest' ih =>
    intro k hdrop
    have hdrop1 : orig.drop (k + 1) = rest' := drop_eq_cons_succ hdrop
    have hget : orig.getD k .nop = i := getD_of_drop_eq_cons hdrop
    rcases hi : isStoreInstr i with _ | _
    · have hpos : storePositions (i :: rest') k = storePositions rest' (k + 1) := by
        simp [storePositions, hi]
      rw [hpos,
        spliceStorePoints_cons_skip a v32 v64 vf32 vf64 orig i rest' _ k hdrop
          (fun p hp => storePositions_ge rest' (k + 1) p hp),
        ih (k + 1) hdrop1]
      unfold memBarrierModel
      rw [List.flatMap_cons]
      cases i <;> simp_all [isStoreInstr, memBarrierModel]
    · have hpos : storePositions (i :: rest') k = k :: storePositions rest' (k + 1) := by
        simp [storePositions, hi]
      rw [hpos]
      simp only [spliceStorePoints]
      rw [Nat.sub_self, List.take_zero, List.nil_append, ih (k + 1) hdrop1, hget]
      unfold memBarrierModel
      rw [List.flatMap_cons]
      cases i <;>
        simp_all [isStoreInstr, memBarrierFor, write_barrier_eq_barrierModel]

/-! ## Lemmas about `get_data` -/

/-- A well-formed segment extracts to the pair `segmentPair` describes. -/
theorem extract_eq_pair (s : DataSegment) (h : segmentGood s = true) :
    ∃ p, extractSegment s = .ok p ∧ segmentPair s = some p := by
  obtain ⟨kind, data⟩ := s
  cases kind with
  | Passive => simp [segmentGood] at h
  | Active mi expr =>
    cases expr <;> simp_all [segmentGood, extractSegment, segmentPair]

/-- A malformed segment extracts to the error `segmentError` describes. -/
theorem extract_eq_err (s : DataSegment) (h : segmentGood s = false) :
    extractSegment s = .error (segmentError s) := by
  obtain ⟨kind, data⟩ := s
  cases kind with
  | Passive => rfl
  | Active mi expr =>
    cases expr <;> simp_all [segmentGood, extractSegment, segmentError]

/-- `collectSegments` stops at the first malformed segment with its error,
and otherwise collects every segment's pair in order. -/
theorem collectSegments_eq (ds : List DataSegment) :
    collectSegments ds =
      match ds.find? (fun s => !segmentGood s) with
      | some s => .error (segmentError s)
      | none => .ok (ds.filterMap segmentPair) := by
  induction ds with
  | nil => rfl
  | cons s rest ih =>
    by_cases hs : segmentGood s = true
    · obtain ⟨p, he, hp⟩ := extract_eq_pair s hs
      unfold collectSegments
      rw [he, ih, List.find?_cons]
      simp only [hs, Bool.not_true]
      cases hfind : rest.find? (fun t => !segmentGood t) with
      | some t => simp
      | none => simp [List.filterMap_cons, hp]
    · rw [Bool.not_eq_true] at hs
      unfold collectSegments
      rw [extract_eq_err s hs, List.find?_cons]
      simp [hs]

/-- `get_data` coincides with its spec model. -/
theorem get_data_eq_model (ds : List DataSegment) : get_data ds = getDataModel ds := by
  unfold get_data getDataModel
  rw [collectSegments_eq]
  cases hfind : ds.find? (fun s => !segmentGood s) <;> simp

/-- On an all-well-formed section, `filterMap segmentPair` pairs every
segment, in order. -/
theorem forall2_filterMap_pair (ds : List DataSegment)
    (h : ∀ s ∈ ds, segmentGood s = true) :
    List.Forall₂ (fun s p => segmentPair s = some p) ds (ds.filterMap segmentPair) := by
  induction ds with
  | nil => simp
  | cons s rest ih =>
    obtain ⟨p, _, hp⟩ := extract_eq_pair s (h s (by simp))
    rw [List.filterMap_cons, hp]
    exact List.Forall₂.cons hp (ih fun t ht => h t (by simp [ht]))

theorem getElem?_append_pair_left {α : Type} (l : List α) (a b : α) :
    (l ++ [a, b])[l.length]? = some a := by
  rw [List.getElem?_append_right (Nat.le_refl _)]
  simp

theorem getElem?_append_pair_right {α : Type} (l : List α) (a b : α) :
    (l ++ [a, b])[l.length + 1]? = some b := by
  rw [List.getElem?_append_right (Nat.le_succ_of_le (Nat.le_refl _))]
  simp

/-! ## Claim theorems -/

/-- C8: when secondary-memory mode (wasm-native stable memory) is enabled,
`update_memories` appends the 64-bit stable memory and then its
page-granularity bytemap at the immediately following memory index, exports
both under their canonical names (as the final two export entries, in that
order), and returns the index `s` assigned to the stable memory, such that
the bytemap's memory index — including the index in its export entry — is
exactly `s + 1`. -/
theorem C8_update_memories_stable_layout (m : Module) (wb : FlagStatus) :
    ((update_memories m wb .Enabled).1.memories.length =
        (update_memories m wb .Enabled).2 + 2)
  ∧ ((update_memories m wb .Enabled).1.memories[(update_memories m wb .Enabled).2]? =
        some ⟨true, false, 0, some MAX_STABLE_MEMORY_IN_WASM_PAGES⟩)
  ∧ ((update_memories m wb .Enabled).1.memories[(update_memories m wb .Enabled).2 + 1]? =
        some ⟨false, false, STABLE_BYTEMAP_SIZE_IN_WASM_PAGES,
          some STABLE_BYTEMAP_SIZE_IN_WASM_PAGES⟩)
  ∧ (∃ preExports,
       (update_memories m wb .Enabled).1.exports =
         preExports ++
           [⟨STABLE_MEMORY_NAME, .Memory, (update_memories m wb .Enabled).2⟩,
            ⟨STABLE_BYTEMAP_MEMORY_NAME, .Memory, (update_memories m wb .Enabled).2 + 1⟩])
  ∧ (∃ preMems,
       (update_memories m wb .Enabled).1.memories =
         preMems ++
           [⟨true, false, 0, some MAX_STABLE_MEMORY_IN_WASM_PAGES⟩,
            ⟨false, false, STABLE_BYTEMAP_SIZE_IN_WASM_PAGES,
             some STABLE_BYTEMAP_SIZE_IN_WASM_PAGES⟩] ∧
       preMems.length = (update_memories m wb .Enabled).2) := by
  obtain ⟨m3, h⟩ := update_memories_enabled m wb
  simp only [h]
  refine ⟨?_, ?_, ?_, ⟨m3.exports, rfl⟩, ⟨m3.memories, rfl, rfl⟩⟩
  · simp
  · exact getElem?_append_pair_left m3.memories _ _
  · exact getElem?_append_pair_right m3.memories _ _

/-- C9: `export_table` is idempotent — for every module `m`,
`export_table (export_table m) = export_table m`; and applying it to a
module that has a table export whose table exports already carry the
canonical name leaves the module (in particular every export entry)
unchanged and adds no new export. -/
theorem C9_export_table_idempotent :
    (∀ m : Module, export_table (export_table m) = export_table m) ∧
    (∀ m : Module,
      (∃ e ∈ m.exports, e.kind = ExternalKind.Table) →
      (∀ e ∈ m.exports, e.kind = ExternalKind.Table → e.name = TABLE_STR) →
      export_table m = m) :=
  ⟨export_table_idem, export_table_of_normalized⟩

/-- A minimal module, used as a base for concrete witnesses. -/
def emptyModule : Module :=
  ⟨[], [], [], [], [], [], [], [], [], [], none⟩

/-- A module with one table already exported under the canonical name. -/
def normalizedTableModule : Module :=
  { emptyModule with tables := [⟨1, none⟩], exports := [⟨TABLE_STR, .Table, 0⟩] }

/-- Transfer of membership through the final stable sort of `injections`. -/
theorem mem_injections_iff (code : List Operator) (x : InjectionPoint) :
    x ∈ injections code ↔
      x ∈ injectionsAux 0 (InjectionPoint.new_static_cost 0 .ReentrantBlockStart)
        [] [] code :=
  (List.perm_insertionSort posLe _).mem_iff

/-- C2 (amended to well-bracketed function bodies): `injections` treats the
whole body as an implicit reentrant block starting at position 0, opens a
reentrant-scope static-cost point immediately after each `loop` header and a
non-reentrant-scope static-cost point immediately after each `if` or `block`
header, records a dynamic-cost point exactly at the positions of
`memory.fill` / `memory.copy` / `memory.init` / `table.copy` / `table.init`,
accumulates into each static point the sum of the per-instruction costs of
its block's instructions (`costFrom`; `block`, `loop`, `else`, `end` cost 0,
every other instruction costs 1), and returns the list sorted by
position. -/
theorem C2_injections_structure (code : List Operator) (h : bodyOk code = true) :
    (∃ c, (InjectionPoint.mk (.StaticCost .ReentrantBlockStart c) 0) ∈ injections code)
  ∧ (∀ p op, code[p]? = some op → isLoopHeader op = true →
       ∃ c, (InjectionPoint.mk (.StaticCost .ReentrantBlockStart c) (p + 1)) ∈
         injections code)
  ∧ (∀ p op, code[p]? = some op → isNonReentrantHeader op = true →
       ∃ c, (InjectionPoint.mk (.StaticCost .NonReentrantBlockStart c) (p + 1)) ∈
         injections code)
  ∧ (∀ p, (InjectionPoint.mk .DynamicCost p) ∈ injections code ↔
       ∃ op, code[p]? = some op ∧ isBulkMemoryInstr op = true)
  ∧ (∀ q, q ∈ injections code → ∀ sc c, q.cost_detail = .StaticCost sc c →
       c = costFrom (code.drop q.position) 0)
  ∧ (∀ i, instruction_to_cost i = if isZeroCostStructural i then 0 else 1)
  ∧ List.Pairwise posLe (injections code) := by
  have hscan : scanOk code ([] : List InjectionPoint).length = true := h
  refine ⟨?_, ?_, ?_, ?_, ?_, ?_, injections_pairwise code⟩
  · obtain ⟨c, hc⟩ := open_points_survive code 0
      (InjectionPoint.new_static_cost 0 .ReentrantBlockStart) [] [] hscan
      (InjectionPoint.new_static_cost 0 .ReentrantBlockStart) (Or.inl rfl)
      .ReentrantBlockStart 0 rfl
    exact ⟨c, (mem_injections_iff code _).mpr hc⟩
  · intro p op hop hL
    obtain ⟨c, hc⟩ := (header_and_bulk_points code 0 (InjectionPoint.new_static_cost 0 .ReentrantBlockStart) [] [] hscan p op hop).1 hL
    rw [Nat.zero_add] at hc
    exact ⟨c, (mem_injections_iff code _).mpr hc⟩
  · intro p op hop hN
    obtain ⟨c, hc⟩ := (header_and_bulk_points code 0 (InjectionPoint.new_static_cost 0 .ReentrantBlockStart) [] [] hscan p op hop).2.1 hN
    rw [Nat.zero_add] at hc
    exact ⟨c, (mem_injections_iff code _).mpr hc⟩
  · intro p
    constructor
    · intro hp
      have hd := dynamic_only_at_bulk code 0
        (InjectionPoint.new_static_cost 0 .ReentrantBlockStart) [] []
        (InjectionPoint.mk .DynamicCost p) ⟨_, _, rfl⟩
        (by intro s hs; simp at hs)
        ((mem_injections_iff code _).mp hp) rfl
      rcases hd with h' | ⟨j, op, hop, hbulk, hpos⟩
      · simp at h'
      · simp only [Nat.zero_add] at hpos
        exact ⟨op, by rw [show p = j from hpos]; exact hop, hbulk⟩
    · rintro ⟨op, hop, hbulk⟩
      have hc := (header_and_bulk_points code 0 (InjectionPoint.new_static_cost 0 .ReentrantBlockStart) [] [] hscan p op hop).2.2 hbulk
      rw [Nat.zero_add] at hc
      exact (mem_injections_iff code _).mpr hc
  · intro q hq sc c hdet
    refine cost_values code 0 (InjectionPoint.new_static_cost 0 .ReentrantBlockStart)
      [] [] code rfl (by intro r hr; simp at hr) ?_ trivial q
      ((mem_injections_iff code _).mp hq) sc c hdet
    intro sc' c0 h'
    injection h' with h1 h2
    subst h2
    simp [InjectionPoint.new_static_cost]
  · intro i
    cases i <;> rfl

/-- Counterexample to C2 as stated for arbitrary instruction sequences: on
the one-instruction sequence `[i32.const 5]` — which is not a function body,
since no `end` closes the implicit block — `injections` returns the empty
list, so no implicit reentrant-block point at position 0 is produced. -/
theorem C2_counterexample_not_a_body :
    injections [Operator.i32Const 5] = [] ∧
    ¬ ∃ c, (InjectionPoint.mk (.StaticCost .ReentrantBlockStart c) 0) ∈
      injections [Operator.i32Const 5] := by
  refine ⟨rfl, ?_⟩
  rintro ⟨c, hc⟩
  rw [show injections [Operator.i32Const 5] = [] from rfl] at hc
  simp at hc

/-- Witness for C2 at a concrete function body
`loop / memory.fill / br 0 / end / end`. -/
theorem C2_injections_structure_witness :
    bodyOk [Operator.loop .empty, Operator.memoryFill 0, Operator.br 0,
      Operator.end_, Operator.end_] = true ∧
    (∃ c, (InjectionPoint.mk (.StaticCost .ReentrantBlockStart c) 0) ∈
      injections [Operator.loop .empty, Operator.memoryFill 0, Operator.br 0,
        Operator.end_, Operator.end_]) :=
  ⟨rfl,
   (C2_injections_structure [Operator.loop .empty, Operator.memoryFill 0,
     Operator.br 0, Operator.end_, Operator.end_] rfl).1⟩

/-- C1: `inject_metering` splices, immediately before each surviving
injection point's position, the code the spec lists — for a static-cost
point `global.get counter` / `i64.const cost` / `i64.sub` /
`global.set counter`, for a reentrant-scope point additionally
`global.get counter` / `i64.const 0` / `i64.lt_s` / `if` /
`call out_of_instructions` (function index 0) / `end`, and for a
dynamic-cost point a single call to the decrement-helper function index
(`spliceMeteringGo`/`meteringInstructions` transcribe the spec) — and the
original instructions all appear in the output in their original relative
order (the original code is a sublist of the result). -/
theorem C1_inject_metering_splices (code : List Operator) (emd : ExportModuleData) :
    inject_metering code emd =
      spliceMeteringGo emd code (surviving_points (injections code)) 0
  ∧ code.Sublist (inject_metering code emd) := by
  constructor
  · exact injectMeteringGo_eq_splice emd code (surviving_points (injections code)) 0
  · have h := drop_sublist_injectMeteringGo emd code (surviving_points (injections code)) 0
      (surviving_pairwise code) (fun q _ => Nat.zero_le q.position)
    simpa using h

/-- C3: in `inject_metering` (whose iterated point list is
`surviving_points (injections code)`), an injection point survives the
filter if and only if it is a dynamic-cost point, a static-cost point with
reentrant-block-start scope (kept at any cost, including zero), or a
static-cost point of any scope whose cost is strictly positive; in
particular a reentrant block start with cost 0 (an empty block) is kept. -/
theorem C3_surviving_points_criterion :
    (∀ (points : List InjectionPoint) (q : InjectionPoint),
       q ∈ surviving_points points ↔
         q ∈ points ∧
           (q.cost_detail = .DynamicCost ∨
            (∃ c, q.cost_detail = .StaticCost .ReentrantBlockStart c) ∨
            (∃ sc c, q.cost_detail = .StaticCost sc c ∧ 0 < c)))
  ∧ (∀ (code : List Operator) (emd : ExportModuleData),
       inject_metering code emd =
         injectMeteringGo emd code (surviving_points (injections code)) 0)
  ∧ (∀ (points : List InjectionPoint) (q : InjectionPoint),
       q ∈ points → q.cost_detail = .StaticCost .ReentrantBlockStart 0 →
       q ∈ surviving_points points) := by
  refine ⟨mem_surviving_iff, fun code emd => rfl, ?_⟩
  intro points q hq hd
  exact (mem_surviving_iff points q).mpr ⟨hq, Or.inr (Or.inl ⟨0, hd⟩)⟩

/-- Witness for C3 at a concrete point list with one point of each kind. -/
theorem C3_surviving_points_criterion_witness :
    (⟨.StaticCost .ReentrantBlockStart 0, 2⟩ : InjectionPoint) ∈
        [(⟨.StaticCost .ReentrantBlockStart 0, 2⟩ : InjectionPoint),
         ⟨.StaticCost .NonReentrantBlockStart 0, 5⟩] ∧
    (⟨.StaticCost .ReentrantBlockStart 0, 2⟩ : InjectionPoint) ∈
      surviving_points
        [⟨.StaticCost .ReentrantBlockStart 0, 2⟩,
         ⟨.StaticCost .NonReentrantBlockStart 0, 5⟩] :=
  ⟨by decide,
   C3_surviving_points_criterion.2.2
     [⟨.StaticCost .ReentrantBlockStart 0, 2⟩,
      ⟨.StaticCost .NonReentrantBlockStart 0, 5⟩]
     ⟨.StaticCost .ReentrantBlockStart 0, 2⟩ (by decide) rfl⟩

/-- C4: applying the function-index mutation `i ↦ i + k` increments by
exactly `k` every function-index occurrence in the module — the `Call`,
`ReturnCall` and `RefFunc` operands of every code body, the index of every
function export, every function entry of every element segment, and the
start index when present — and changes nothing else (all other sections and
all other instructions, export kinds/names, element kinds and local
declarations are untouched, as the record-update equality states).
Moreover, after `inject_helper_functions` prepends its
`InjectedImports.count` helper imports and renumbers by that count, every
position `i` of the original function index space holds the same logical
function at position `i + count` — imported functions keep their
module/name, local functions their rank. -/
theorem C4_function_index_shift (m : Module) (k : Nat) :
    (mutate_function_indices m (· + k) =
      { m with
        code_sections := m.code_sections.map fun b =>
          ⟨b.locals, b.instructions.map (shiftOperator k)⟩,
        exports := m.exports.map (shiftExport k),
        elements := m.elements.map (shiftElement k),
        start := m.start.map (· + k) })
  ∧ (∀ flag : FlagStatus, ∀ j : Nat,
       (funcIds (inject_helper_functions m flag))[j + InjectedImports.count flag]? =
         (funcIds m)[j]?) := by
  refine ⟨mutate_function_indices_shift m k, ?_⟩
  intro flag j
  rw [funcIds_inject_helper]
  cases flag with
  | Enabled =>
    rw [List.getElem?_append_right (by simp [InjectedImports.count])]
    simp [InjectedImports.count]
  | Disabled =>
    rw [List.getElem?_append_right (by simp [InjectedImports.count])]
    simp [InjectedImports.count]

/-- C6: for every function body, each store site with static offset `o` is
rewritten to stash the value and address operands into scratch locals, store
the constant 1 into the bytemap memory (memory index 1) at the page index
covering `address + o` — with an address-only shift and a static bytemap
offset of `o / PAGE_SIZE` when `o` is a multiple of the page size, and an
`i32.add` of `o` before the shift otherwise — and then reload the address
and value and re-execute the original store unchanged; a function with no
stores is left untouched (no locals added).  The final conjunct checks the
aligned shortcut: shifting the address alone and adding the statically
divided offset addresses the same bytemap page as shifting `address + o`. -/
theorem C6_inject_mem_barrier_marks_stores (func_body : Body) (func_type : FuncType) :
    (inject_mem_barrier func_body func_type =
      if func_body.instructions.any isStoreInstr then
        { locals := func_body.locals ++
            [(2, ValType.i32), (1, ValType.i64), (1, ValType.f32), (1, ValType.f64)],
          instructions :=
            memBarrierModel
              (func_type.params.length + (func_body.locals.map Prod.fst).sum)
              (func_type.params.length + (func_body.locals.map Prod.fst).sum + 1)
              (func_type.params.length + (func_body.locals.map Prod.fst).sum + 2)
              (func_type.params.length + (func_body.locals.map Prod.fst).sum + 3)
              (func_type.params.length + (func_body.locals.map Prod.fst).sum + 4)
              func_body.instructions }
      else func_body)
  ∧ (∀ addr offset : Nat, offset % PAGE_SIZE = 0 →
       addr >>> page_size_shift + offset / PAGE_SIZE = (addr + offset) / PAGE_SIZE) := by
  constructor
  · unfold inject_mem_barrier
    rcases hany : func_body.instructions.any isStoreInstr with _ | _
    · have : storePositions func_body.instructions 0 = [] :=
        (storePositions_nil_iff func_body.instructions 0).mpr hany
      simp [this]
    · have hne : ¬ storePositions func_body.instructions 0 = [] := by
        intro hcon
        rw [(storePositions_nil_iff func_body.instructions 0).mp hcon] at hany
        exact Bool.false_ne_true hany
      simp only [List.isEmpty_iff, hne, if_false, if_true]
      rw [spliceStorePoints_eq_model _ _ _ _ _ func_body.instructions
        func_body.instructions 0 rfl]
  · intro addr offset h
    have hs : addr >>> page_size_shift = addr / 4096 := by
      rw [Nat.shiftRight_eq_div_pow]
      norm_num [page_size_shift]
    rw [hs]
    norm_num [PAGE_SIZE] at h ⊢
    omega

/-- Witness for C6 at a concrete body with one aligned and one unaligned
store. -/
theorem C6_inject_mem_barrier_marks_stores_witness :
    inject_mem_barrier
        ⟨[], [.i32Store ⟨0, 0, 4096, 0⟩, .f64Store ⟨0, 0, 7, 0⟩]⟩ ⟨[], []⟩ =
      ⟨[(2, ValType.i32), (1, ValType.i64), (1, ValType.f32), (1, ValType.f64)],
       [.localSet 1, .localTee 0, .i32Const 12, .i32ShrU, .i32Const 1,
        .i32Store8 ⟨0, 0, 1, 1⟩, .localGet 0, .localGet 1,
        .i32Store ⟨0, 0, 4096, 0⟩,
        .localSet 4, .localTee 0, .i32Const 7, .i32Add, .i32Const 12, .i32ShrU,
        .i32Const 1, .i32Store8 ⟨0, 0, 0, 1⟩, .localGet 0, .localGet 4,
        .f64Store ⟨0, 0, 7, 0⟩]⟩ ∧
    (4096 % PAGE_SIZE = 0 ∧
      (8192 : Nat) >>> page_size_shift + 4096 / PAGE_SIZE = (8192 + 4096) / PAGE_SIZE) := by
  refine ⟨?_, by rfl,
    (C6_inject_mem_barrier_marks_stores
      ⟨[], [.i32Store ⟨0, 0, 4096, 0⟩, .f64Store ⟨0, 0, 7, 0⟩]⟩ ⟨[], []⟩).2 8192 4096
      (by rfl)⟩
  have h := (C6_inject_mem_barrier_marks_stores
    ⟨[], [.i32Store ⟨0, 0, 4096, 0⟩, .f64Store ⟨0, 0, 7, 0⟩]⟩ ⟨[], []⟩).1
  rw [h]
  rfl

/-- C7: `get_data` returns a deserialization error if and only if some data
segment has no offset (is not an active segment) or is active with an offset
expression other than a single `i32.const`; otherwise it returns, in segment
order, the `(offset, bytes)` pair of every segment and clears the module's
data section.  The first conjunct is equality with the spec model
`getDataModel`; the last conjunct spells out the success case. -/
theorem C7_get_data_errors_and_success (ds : List DataSegment) :
    get_data ds = getDataModel ds
  ∧ ((∃ e, (get_data ds).1 = Except.error e) ↔ ∃ s ∈ ds, segmentGood s = false)
  ∧ ((∀ s ∈ ds, segmentGood s = true) →
       ∃ pairs, (get_data ds).1 = Except.ok pairs ∧ (get_data ds).2 = [] ∧
         List.Forall₂ (fun s p => segmentPair s = some p) ds pairs) := by
  refine ⟨get_data_eq_model ds, ?_, ?_⟩
  · rw [get_data_eq_model ds]
    unfold getDataModel
    cases hfind : ds.find? (fun s => !segmentGood s) with
    | some s =>
      simp only []
      constructor
      · intro _
        exact ⟨s, List.mem_of_find?_eq_some hfind, by
          have := List.find?_some hfind
          simpa using this⟩
      · intro _
        exact ⟨segmentError s, rfl⟩
    | none =>
      simp only []
      constructor
      · rintro ⟨e, he⟩
        simp at he
      · rintro ⟨s, hs, hbad⟩
        have := List.find?_eq_none.mp hfind s hs
        simp [hbad] at this
  · intro h
    rw [get_data_eq_model ds]
    unfold getDataModel
    have hfind : ds.find? (fun s => !segmentGood s) = none := by
      rw [List.find?_eq_none]
      intro s hs
      simp [h s hs]
    rw [hfind]
    exact ⟨ds.filterMap segmentPair, rfl, rfl, forall2_filterMap_pair ds h⟩

/-- Witness for C7 at a concrete well-formed data section. -/
theorem C7_get_data_errors_and_success_witness :
    (∀ s ∈ [DataSegment.mk (.Active 0 (.i32Const 4)) [1, 2]], segmentGood s = true) ∧
    (∃ pairs,
      (get_data [DataSegment.mk (.Active 0 (.i32Const 4)) [1, 2]]).1 = Except.ok pairs ∧
      (get_data [DataSegment.mk (.Active 0 (.i32Const 4)) [1, 2]]).2 = [] ∧
      List.Forall₂ (fun s p => segmentPair s = some p)
        [DataSegment.mk (.Active 0 (.i32Const 4)) [1, 2]] pairs) :=
  ⟨by decide,
   (C7_get_data_errors_and_success [DataSegment.mk (.Active 0 (.i32Const 4)) [1, 2]]).2.2
     (by decide)⟩

/-- C10: if `get_data` returns an error, the module's data section is left
exactly as it was — the section is cleared only on the success path. -/
theorem C10_get_data_error_keeps_section (ds : List DataSegment)
    (e : WasmInstrumentationError) (h : (get_data ds).1 = Except.error e) :
    (get_data ds).2 = ds := by
  unfold get_data at h ⊢
  cases hc : collectSegments ds with
  | error e' => simp [hc]
  | ok res => rw [hc] at h; simp at h

/-- Witness for C10 at a concrete malformed data section. -/
theorem C10_get_data_error_keeps_section_witness :
    (get_data [DataSegment.mk .Passive [7]]).1 =
      Except.error (.WasmDeserializeError "no offset found for the data segment") ∧
    (get_data [DataSegment.mk .Passive [7]]).2 = [DataSegment.mk .Passive [7]] :=
  ⟨by rfl,
   C10_get_data_error_keeps_section [DataSegment.mk .Passive [7]]
     (.WasmDeserializeError "no offset found for the data segment") (by rfl)⟩

/-- Witness for C9 at a concrete module. -/
theorem C9_export_table_idempotent_witness :
    export_table (export_table normalizedTableModule) = export_table normalizedTableModule ∧
    export_table normalizedTableModule = normalizedTableModule := by
  refine ⟨C9_export_table_idempotent.1 normalizedTableModule,
    C9_export_table_idempotent.2 normalizedTableModule
      ⟨⟨TABLE_STR, .Table, 0⟩, ?_, rfl⟩ ?_⟩
  · simp [normalizedTableModule, emptyModule]
  · intro e he _
    simp [normalizedTableModule, emptyModule] at he
    simp [he]

end Wasm
